import Mathlib

/-!
Verification of the Chimera DNS steganography core against its
natural-language specification.

The development shallowly embeds the C++ sources (`src/steganography.cpp`,
`src/dns_packet.cpp`, `include/chimera/base64.hpp`) into Lean:

* byte strings (`std::vector<uint8_t>`, `std::string`) are `List ℕ` whose
  elements are intended to be `< 256`; character data is kept as ASCII codes;
* machine integers are `ℕ` with an explicit `% 2 ^ 32` (`u32`) where the C++
  code stores into a `uint32_t`;
* the process-wide Mersenne-twister RNG is an explicit draw stream
  `g : ℕ → ℕ`; the k-th draw of the C++ generator is `g k`, and a
  `uniform_int_distribution(a, b)` draw is rendered as `a + g k % (b - a + 1)`;
* C++ exceptions become `Except String` / `Option`, and `tl::expected`
  becomes `Except SteganographyError`;
* `std::sort` / `std::stable_sort` on a key are modelled by a stable
  insertion sort on that key (the claims proved here never depend on how a
  sort implementation orders elements with equal keys).
-/

namespace Chimera

instance {ε α : Type} [DecidableEq ε] [DecidableEq α] :
    DecidableEq (Except ε α) := fun a b =>
  match a, b with
  | Except.ok x, Except.ok y =>
      if h : x = y then Decidable.isTrue (by rw [h])
      else Decidable.isFalse (by intro hh; cases hh; exact h rfl)
  | Except.ok _, Except.error _ => Decidable.isFalse (by intro hh; cases hh)
  | Except.error _, Except.ok _ => Decidable.isFalse (by intro hh; cases hh)
  | Except.error x, Except.error y =>
      if h : x = y then Decidable.isTrue (by rw [h])
      else Decidable.isFalse (by intro hh; cases hh; exact h rfl)

/-! ### Generic helpers: stable sort on a natural-number key

`std::stable_sort` (used by `encode_distributed`) and `std::sort` on the
fragment id (used by `decode_fragments` and `sort_fragments_by_id`) are
modelled by `keySort`, an insertion sort that keeps the input order of
elements with equal keys. -/

def keyInsert {α : Type} (key : α → ℕ) (a : α) : List α → List α
  | [] => [a]
  | b :: l => if key a ≤ key b then a :: b :: l else b :: keyInsert key a l

def keySort {α : Type} (key : α → ℕ) : List α → List α
  | [] => []
  | a :: l => keyInsert key a (keySort key l)

def listSwap {α : Type} (l : List α) (i j : ℕ) : List α :=
  match l[i]?, l[j]? with
  | some x, some y => (l.set i y).set j x
  | _, _ => l

def shuffleGo {α : Type} (g : ℕ → ℕ) : List α → ℕ → List α
  | l, 0 => l
  | l, i + 1 => shuffleGo g (listSwap l (i + 1) (g (i + 1) % (i + 2))) i

def strBytes (s : String) : List ℕ := s.toList.map Char.toNat

/-- `static_cast<uint32_t>` -/
def u32 (n : ℕ) : ℕ := n % 4294967296

/-- The reserved decoy fragment id `0xFFFFFFFF`. -/
def sentinelId : ℕ := 4294967295

def dotByte : ℕ := 46

/-- One hex digit as printed by `std::hex` (lowercase). -/
def hexDigitByte (d : ℕ) : ℕ := if d < 10 then 48 + d else 97 + (d - 10)

/-- ASCII bytes of `oss << std::hex << n` (lowercase, no leading zeros). -/
def toHexBytes (n : ℕ) : List ℕ :=
  if h : n < 16 then [hexDigitByte n]
  else toHexBytes (n / 16) ++ [hexDigitByte (n % 16)]
termination_by n
decreasing_by
  exact Nat.div_lt_self (by omega) (by norm_num)

/-- ASCII bytes of `std::to_string n`. -/
def toDecBytes (n : ℕ) : List ℕ :=
  if h : n < 10 then [48 + n]
  else toDecBytes (n / 10) ++ [48 + n % 10]
termination_by n
decreasing_by
  exact Nat.div_lt_self (by omega) (by norm_num)

/-- The character loop of `DnsPacketBuilder::split_domain`: split on `'.'`,
dropping empty labels; `current` is the label being accumulated. -/
def splitDomainGo (domain current : List ℕ) : List (List ℕ) :=
  match domain with
  | [] => if current = [] then [] else [current]
  | c :: rest =>
      if c = dotByte then
        if current = [] then splitDomainGo rest []
        else current :: splitDomainGo rest []
      else splitDomainGo rest (current ++ [c])

/-- `DnsPacketBuilder::split_domain`. -/
def splitDomain (domain : List ℕ) : List (List ℕ) :=
  splitDomainGo domain []

def b64tbl : List ℕ :=
  strBytes "ABCDEFGHIJKLMNOPQRSTUVWXYZabcdefghijklmnopqrstuvwxyz0123456789+/"

def b64char (v : ℕ) : ℕ := b64tbl.getD v 0

/-- ASCII `'='`. -/
def padByte : ℕ := 61

def b64encode : List ℕ → List ℕ
  | [] => []
  | [a] =>
      [b64char ((a <<< 16) >>> 18 &&& 63), b64char ((a <<< 16) >>> 12 &&& 63),
        padByte, padByte]
  | [a, a2] =>
      [b64char ((a <<< 16 ||| a2 <<< 8) >>> 18 &&& 63),
        b64char ((a <<< 16 ||| a2 <<< 8) >>> 12 &&& 63),
        b64char ((a <<< 16 ||| a2 <<< 8) >>> 6 &&& 63), padByte]
  | a :: a2 :: a3 :: rest =>
      b64char ((a <<< 16 ||| a2 <<< 8 ||| a3) >>> 18 &&& 63) ::
        b64char ((a <<< 16 ||| a2 <<< 8 ||| a3) >>> 12 &&& 63) ::
        b64char ((a <<< 16 ||| a2 <<< 8 ||| a3) >>> 6 &&& 63) ::
        b64char ((a <<< 16 ||| a2 <<< 8 ||| a3) &&& 63) :: b64encode rest

/-- `char_to_val` for non-pad characters (`none` = "Invalid base64 character"
exception). -/
def b64val (c : ℕ) : Option ℕ :=
  if 65 ≤ c ∧ c ≤ 90 then some (c - 65)
  else if 97 ≤ c ∧ c ≤ 122 then some (c - 97 + 26)
  else if 48 ≤ c ∧ c ≤ 57 then some (c - 48 + 52)
  else if c = 43 then some 62
  else if c = 47 then some 63
  else none

def b64decode4 (c0 c1 c2 c3 : ℕ) : Option (List ℕ) :=
  match b64val c0, b64val c1 with
  | some v0, some v1 =>
      if c2 = padByte then
        if c3 = padByte then
          some [(v0 <<< 18 ||| v1 <<< 12) >>> 16 &&& 255]
        else none
      else
        match b64val c2 with
        | some v2 =>
            if c3 = padByte then
              some [(v0 <<< 18 ||| v1 <<< 12 ||| v2 <<< 6) >>> 16 &&& 255,
                (v0 <<< 18 ||| v1 <<< 12 ||| v2 <<< 6) >>> 8 &&& 255]
            else
              match b64val c3 with
              | some v3 =>
                  some [(v0 <<< 18 ||| v1 <<< 12 ||| v2 <<< 6 ||| v3) >>> 16 &&& 255,
                    (v0 <<< 18 ||| v1 <<< 12 ||| v2 <<< 6 ||| v3) >>> 8 &&& 255,
                    (v0 <<< 18 ||| v1 <<< 12 ||| v2 <<< 6 ||| v3) &&& 255]
              | none => none
        | none => none
  | _, _ => none

def b64decodeAux : List ℕ → Option (List ℕ)
  | [] => some []
  | c0 :: c1 :: c2 :: c3 :: rest => do
      let b ← b64decode4 c0 c1 c2 c3
      let r ← b64decodeAux rest
      pure (b ++ r)
  | _ => none

def b64decode (l : List ℕ) : Option (List ℕ) :=
  if l.length % 4 = 0 then b64decodeAux l else none

def crcPoly : ℕ := 0xEDB88320

/-- One iteration of the inner `for (int i = 0; i < 8; ++i)` loop. -/
def crcRound (crc : ℕ) : ℕ :=
  if crc &&& 1 = 1 then (crc >>> 1) ^^^ crcPoly else crc >>> 1

/-- One iteration of the outer `for (uint8_t byte : data)` loop. -/
def crcByteStep (crc byte : ℕ) : ℕ := crcRound^[8] (crc ^^^ byte)

def crcAccum (data : List ℕ) : ℕ :=
  (data.foldl crcByteStep 0xFFFFFFFF) ^^^ 0xFFFFFFFF

def calculate_checksum (data : List ℕ) : List ℕ :=
  [crcAccum data &&& 255, (crcAccum data >>> 8) &&& 255,
    (crcAccum data >>> 16) &&& 255, (crcAccum data >>> 24) &&& 255]

def verify_checksum (data checksum : List ℕ) : Bool :=
  decide (calculate_checksum data = checksum)

def typeA : ℕ := 1
def typeNS : ℕ := 2
def typeCNAME : ℕ := 5
def typeMX : ℕ := 15
def typeTXT : ℕ := 16
def typeAAAA : ℕ := 28

structure DnsResourceRecord where
  name : List ℕ
  type : ℕ
  cls : ℕ
  ttl : ℕ
  rdata : List ℕ
deriving DecidableEq, Repr

inductive SteganographyError where
  | PayloadTooLarge
  | InvalidRecordType
  | EncodingError
  | DecodingError
  | FragmentationError
deriving DecidableEq, Repr

inductive EncodingStrategy where
  | TXT_ONLY
  | MULTI_RECORD
  | DISTRIBUTED
  | HTTP2_BODY
deriving DecidableEq, Repr

structure EncodingConfig where
  strategy : EncodingStrategy := EncodingStrategy.MULTI_RECORD
  max_txt_length : ℕ := 255
  max_fragments : ℕ := 10
  use_compression : Bool := true
  randomize_order : Bool := true
  noise_ratio : ℚ := 1 / 10
deriving DecidableEq, Repr

structure EncodedFragment where
  record_type : ℕ
  domain : List ℕ
  encoded_data : List ℕ
  fragment_id : ℕ
  total_fragments : ℕ
  checksum : List ℕ
deriving DecidableEq, Repr

/-- `DecodedPayload` without the wall-clock `decode_time` field, which has no
meaning in a pure model. -/
structure DecodedPayload where
  data : List ℕ
  original_size : ℕ
  used_record_types : List ℕ
deriving DecidableEq, Repr

/-! ### Address carrier encoders (`IPv4Encoding`, `IPv6Encoding`) -/

def encode_to_ipv4 (payload : List ℕ) (offset : ℕ) : List ℕ :=
  let b := fun i => payload.getD (offset + i) 0
  if payload.length < offset + 4 then
    [if b 0 = 0 then 192 else b 0, if b 1 = 0 then 168 else b 1, b 2, b 3]
  else [b 0, b 1, b 2, b 3]

def decode_from_ipv4 (ipv4_bytes : List ℕ) : List ℕ :=
  if ipv4_bytes.length ≠ 4 then [] else ipv4_bytes

def is_valid_steganographic_ip (ip : List ℕ) : Bool :=
  if ip.length ≠ 4 then false
  else decide ((ip.getD 0 0 = 192 ∧ ip.getD 1 0 = 168) ∨ ip.getD 0 0 = 10 ∨
    (ip.getD 0 0 = 172 ∧ 16 ≤ ip.getD 1 0 ∧ ip.getD 1 0 ≤ 31))

def encode_to_ipv6 (payload : List ℕ) (offset : ℕ) : List ℕ :=
  let b := fun i => payload.getD (offset + i) 0
  let base := (List.range 16).map b
  if payload.length < offset + 16 then
    (base.set 0 (if b 0 = 0 then 254 else b 0)).set 1 (if b 1 = 0 then 128 else b 1)
  else base

def decode_from_ipv6 (ipv6_bytes : List ℕ) : List ℕ :=
  if ipv6_bytes.length ≠ 16 then [] else ipv6_bytes

def is_valid_steganographic_ipv6 (ipv6 : List ℕ) : Bool :=
  if ipv6.length ≠ 16 then false
  else decide ((ipv6.getD 0 0 = 254 ∧ ipv6.getD 1 0 &&& 192 = 128) ∨
    ipv6.getD 0 0 = 252 ∨ ipv6.getD 0 0 = 253)

/-! ### Text carrier encoder (`TXTEncoding`) -/

/-- `"v=spf1 include:_spf.google.com ~all; frag="` as bytes. -/
def spfHeader : List ℕ := strBytes "v=spf1 include:_spf.google.com ~all; frag="

/-- Byte pattern `"frag="`. -/
def fragPat : List ℕ := strBytes "frag="

def create_steganographic_txt (chunk : List ℕ) (fragment_id : ℕ) : List ℕ :=
  spfHeader ++ toHexBytes fragment_id ++ [padByte] ++ chunk

/-- Pad the final chunk with `'='` up to a multiple of 4
(the `while (chunk.length() % 4 != 0)` loop). -/
def padTo4 (chunk : List ℕ) : List ℕ :=
  chunk ++ List.replicate ((4 - chunk.length % 4) % 4) padByte

/-- Split Base64 text into 200-byte chunks; only the final (short) chunk is
pad-adjusted, exactly as in the source loop. -/
def splitChunks (l : List ℕ) : List (List ℕ) :=
  if l = [] then []
  else if h : l.length ≤ 200 then [padTo4 l]
  else l.take 200 :: splitChunks (l.drop 200)
termination_by l.length
decreasing_by
  rw [List.length_drop]
  omega

/-- The `for (size_t i = 0; ...)` chunk loop: fragment `i` wraps chunk `i`
with its index (`fragments.size()`, a `uint32_t`) as fragment id. -/
def encode_to_txt_fragments (payload : List ℕ) : List (List ℕ) :=
  (List.range (splitChunks (b64encode payload)).length).map
    (fun i => create_steganographic_txt
      ((splitChunks (b64encode payload)).getD i []) (u32 i))

/-- `std::string::find(pat)`: index of the first occurrence. -/
def findSubGo (pat : List ℕ) : List ℕ → ℕ → Option ℕ
  | [], i => if ([] : List ℕ).take pat.length = pat then some i else none
  | a :: rest, i =>
      if (a :: rest).take pat.length = pat then some i
      else findSubGo pat rest (i + 1)

def findSub (l pat : List ℕ) : Option ℕ := findSubGo pat l 0

/-- `std::string::find(c, start)`. -/
def findByteGo (c : ℕ) : List ℕ → ℕ → Option ℕ
  | [], _ => none
  | x :: rest, i => if x = c then some i else findByteGo c rest (i + 1)

def findByteFrom (c : ℕ) (l : List ℕ) (start : ℕ) : Option ℕ :=
  findByteGo c (l.drop start) start

def decode_from_txt_fragments (txt_records : List (List ℕ)) :
    Option (List ℕ) :=
  let combined := txt_records.foldl (fun acc txt =>
    match findSub txt fragPat with
    | some fp =>
        match findByteFrom padByte txt (fp + 5) with
        | some ds => acc ++ txt.drop (ds + 1)
        | none =>
            match findByteFrom padByte txt fp with
            | some ep => acc ++ txt.drop (ep + 1)
            | none => acc
    | none => acc ++ txt) []
  b64decode combined

/-! ### Payload compressor

Modelled from the spec: `compress_payload` / `decompress_payload` wrap the
external zlib DEFLATE library, which is not part of this repository (§2:
"best-effort DEFLATE compress/decompress with lossless fallback"; §7:
"Compression/decompression failures always fall back to the
uncompressed/raw bytes").  The model is a lossless transform marked with the
standard two-byte zlib stream header; `decompress_payload` falls back to
returning its input when the header is absent. -/

def compress_payload (payload : List ℕ) : List ℕ := 120 :: 156 :: payload

def decompress_payload (compressed : List ℕ) : List ℕ :=
  match compressed with
  | 120 :: 156 :: rest => rest
  | _ => compressed

/-! ### Steganographic encoder (`SteganographicEncoder`) -/

def generate_steganographic_subdomain (fragment_id : ℕ) (record_type : ℕ) :
    List ℕ :=
  if record_type = typeA then strBytes "www" ++ toHexBytes fragment_id
  else if record_type = typeAAAA then strBytes "ipv6-" ++ toHexBytes fragment_id
  else if record_type = typeTXT then strBytes "mail" ++ toHexBytes fragment_id
  else strBytes "srv" ++ toHexBytes fragment_id

def encode_txt_only (payload base_domain : List ℕ) :
    Except SteganographyError (List EncodedFragment) :=
  Except.ok ((List.range (encode_to_txt_fragments payload).length).map (fun i =>
    { record_type := typeTXT
      domain := generate_steganographic_subdomain (u32 i) typeTXT ++
        [dotByte] ++ base_domain
      encoded_data := (encode_to_txt_fragments payload).getD i []
      fragment_id := u32 i
      total_fragments := u32 (encode_to_txt_fragments payload).length
      checksum := calculate_checksum ((encode_to_txt_fragments payload).getD i []) }))

def emrCap (fid len offset : ℕ) : ℕ :=
  if fid % 3 = 0 then 4
  else if fid % 3 = 1 then 16
  else min 200 (len - offset)

def emrChunkSize (fid len offset : ℕ) : ℕ :=
  min (emrCap fid len offset) (len - offset)

def emrType (fid : ℕ) : ℕ :=
  if fid % 3 = 0 then typeA else if fid % 3 = 1 then typeAAAA else typeTXT

/-- The `encoded_data` of one `encode_multi_record` fragment. -/
def emrData (payload : List ℕ) (offset fid : ℕ) : List ℕ :=
  if fid % 3 = 0 then encode_to_ipv4 payload offset
  else if fid % 3 = 1 then encode_to_ipv6 payload offset
  else create_steganographic_txt
    (b64encode ((payload.drop offset).take (emrChunkSize fid payload.length offset))) fid

/-- One fragment built by the body of the `encode_multi_record` loop.
`total_fragments` is patched in after the loop, so it is left `0` here. -/
def emrFrag (payload base_domain : List ℕ) (offset fid : ℕ) : EncodedFragment :=
  { record_type := emrType fid
    domain := generate_steganographic_subdomain fid (emrType fid) ++
      [dotByte] ++ base_domain
    encoded_data := emrData payload offset fid
    fragment_id := fid
    total_fragments := 0
    checksum := calculate_checksum (emrData payload offset fid) }

/-- The `while (offset < payload.size())` loop of `encode_multi_record`.
`fid` is the `uint32_t` fragment counter (increment wraps at `2^32`). -/
def encode_multi_record_loop (payload base_domain : List ℕ) (maxFrag : ℕ)
    (offset fid : ℕ) : List EncodedFragment :=
  if h : offset < payload.length then
    if (fid + 1) % 4294967296 ≥ maxFrag then [emrFrag payload base_domain offset fid]
    else emrFrag payload base_domain offset fid ::
      encode_multi_record_loop payload base_domain maxFrag
        (offset + emrChunkSize fid payload.length offset) ((fid + 1) % 4294967296)
  else []
termination_by payload.length - offset
decreasing_by
  have h0 : 0 < emrChunkSize fid payload.length offset := by
    unfold emrChunkSize emrCap
    split_ifs <;> omega
  omega

/-- No-padding condition for one `encode_multi_record` fragment: an A record
needs 4 remaining payload bytes and an AAAA record 16, otherwise the encoder
zero-pads (and the payload cannot be recovered); TXT chunks are lossless. -/
def emrStepOK (fid len offset : ℕ) : Bool :=
  if fid % 3 = 0 then decide (offset + 4 ≤ len)
  else if fid % 3 = 1 then decide (16 + offset ≤ len)
  else true

/-- Exactness of the whole `encode_multi_record` loop: every emitted
fragment is unpadded and the loop consumes the entire payload before the
`max_fragments` break. -/
def multiExactGo (len m offset fid : ℕ) : Bool :=
  if h : offset < len then
    if (fid + 1) % 4294967296 ≥ m then
      emrStepOK fid len offset &&
        decide (offset + emrChunkSize fid len offset = len)
    else emrStepOK fid len offset &&
      multiExactGo len m (offset + emrChunkSize fid len offset)
        ((fid + 1) % 4294967296)
  else true
termination_by len - offset
decreasing_by
  have h0 : 0 < emrChunkSize fid len offset := by
    unfold emrChunkSize emrCap
    split_ifs <;> omega
  omega

def add_noise_fragments (g : ℕ → ℕ) (fragments : List EncodedFragment)
    (base_domain : List ℕ) (noise_ratio : ℚ) : List EncodedFragment :=
  let noise_count : ℕ := ((fragments.length : ℚ) * noise_ratio).floor.toNat
  fragments ++ (List.range noise_count).map (fun i =>
    { record_type := 1 + g (33 * i) % 16
      domain := strBytes "noise" ++ toDecBytes i ++ [dotByte] ++ base_domain
      encoded_data := (List.range 32).map (fun j => g (33 * i + 1 + j) % 256)
      fragment_id := sentinelId
      total_fragments := 0
      checksum := [] })

def randomize_fragment_order (g : ℕ → ℕ)
    (fragments : List EncodedFragment) : List EncodedFragment :=
  shuffleGo g fragments (fragments.length - 1)

def encode_multi_record (cfg : EncodingConfig) (gN gS : ℕ → ℕ)
    (payload base_domain : List ℕ) :
    Except SteganographyError (List EncodedFragment) :=
  let raw := encode_multi_record_loop payload base_domain cfg.max_fragments 0 0
  let frags := raw.map (fun f => { f with total_fragments := u32 raw.length })
  let frags2 := if cfg.noise_ratio > 0 then
    add_noise_fragments gN frags base_domain cfg.noise_ratio else frags
  let frags3 := if cfg.randomize_order then
    randomize_fragment_order gS frags2 else frags2
  Except.ok frags3

def encode_distributed (cfg : EncodingConfig) (gN gS : ℕ → ℕ)
    (payload base_domain : List ℕ) :
    Except SteganographyError (List EncodedFragment) :=
  match encode_multi_record cfg gN gS payload base_domain with
  | Except.error e => Except.error e
  | Except.ok fragments =>
      Except.ok (keySort (fun f => f.record_type) fragments)

def encode_payload (cfg : EncodingConfig) (gN gS : ℕ → ℕ)
    (payload base_domain : List ℕ) :
    Except SteganographyError (List EncodedFragment) :=
  if payload = [] then Except.error SteganographyError.PayloadTooLarge
  else
    let processed := if cfg.use_compression then compress_payload payload
      else payload
    match cfg.strategy with
    | EncodingStrategy.TXT_ONLY => encode_txt_only processed base_domain
    | EncodingStrategy.MULTI_RECORD =>
        encode_multi_record cfg gN gS processed base_domain
    | EncodingStrategy.DISTRIBUTED =>
        encode_distributed cfg gN gS processed base_domain
    | EncodingStrategy.HTTP2_BODY =>
        Except.error SteganographyError.EncodingError

/-! ### Decoder (`SteganographicEncoder::decode_fragments`)

The outer value is `Option`: `none` models an uncaught C++ exception
(thrown by `Base64::decode` on malformed TXT data), which is distinct from
the structured `tl::expected` error channel. -/

def decode_one_fragment (f : EncodedFragment) : Option (List ℕ) :=
  if f.record_type = typeA then some (decode_from_ipv4 f.encoded_data)
  else if f.record_type = typeAAAA then some (decode_from_ipv6 f.encoded_data)
  else if f.record_type = typeTXT then decode_from_txt_fragments [f.encoded_data]
  else some []

/-- The decoder loop over the surviving fragments: decode each in order,
any thrown exception (`none`) aborting the whole decode. -/
def optMapM {α β : Type} (f : α → Option β) : List α → Option (List β)
  | [] => some []
  | a :: t =>
      match f a, optMapM f t with
      | some b, some bs => some (b :: bs)
      | _, _ => none

def decode_fragments (cfg : EncodingConfig)
    (fragments : List EncodedFragment) :
    Option (Except SteganographyError DecodedPayload) :=
  if fragments = [] then some (Except.error SteganographyError.DecodingError)
  else
    let sorted := keySort (fun f => f.fragment_id) fragments
    let nonNoise := sorted.filter (fun f => f.fragment_id ≠ sentinelId)
    let survivors := nonNoise.filter
      (fun f => verify_checksum f.encoded_data f.checksum)
    match optMapM decode_one_fragment survivors with
    | none => none
    | some parts =>
        let final := if cfg.use_compression then decompress_payload parts.flatten
          else parts.flatten
        some (Except.ok
          { data := final
            original_size := final.length
            used_record_types := survivors.map (fun f => f.record_type) })

/-! ### Extractor (`SteganographicExtractor`) -/

def detect_steganographic_pattern (record : DnsResourceRecord) : Bool :=
  if record.type = typeA then is_valid_steganographic_ip record.rdata
  else if record.type = typeAAAA then is_valid_steganographic_ipv6 record.rdata
  else if record.type = typeTXT then
    (findSub record.rdata fragPat).isSome ||
      (findSub record.rdata (strBytes "v=spf1")).isSome
  else false

def extract_fragments (records : List DnsResourceRecord) :
    List EncodedFragment :=
  records.foldl (fun acc record =>
    if detect_steganographic_pattern record then
      acc ++ [{ record_type := record.type
                domain := record.name
                encoded_data := record.rdata
                fragment_id := u32 acc.length
                total_fragments := u32 records.length
                checksum := [] }]
    else acc) []

def sort_fragments_by_id (fragments : List EncodedFragment) :
    List EncodedFragment :=
  keySort (fun f => f.fragment_id) fragments

def validate_fragment_sequence (fragments : List EncodedFragment) : Bool :=
  if fragments.isEmpty then false
  else decide (∀ i : Fin fragments.length, (fragments.get i).fragment_id = i.val)

def reconstruct_from_fragments (fragments : List EncodedFragment) :
    Except SteganographyError (List ℕ) :=
  let sorted := sort_fragments_by_id fragments
  if validate_fragment_sequence sorted then
    Except.ok (sorted.foldl (fun acc f => acc ++ f.encoded_data) [])
  else Except.error SteganographyError.FragmentationError

def extract_from_dns_response (records : List DnsResourceRecord) :
    Except SteganographyError (List ℕ) :=
  reconstruct_from_fragments (extract_fragments records)

/-! ### DNS wire parser (`src/dns_packet.cpp`)

`read_domain_name` is a `while (true)` loop whose termination is enforced
by the pointer-jump cap; it is modelled with an explicit fuel parameter,
`none` meaning "fuel exhausted".  `rdnLoop_fuel` proves that the fuel
`rdnFuel data` (linear in the message size) is always sufficient, which is
the formal content of "bounded work, never an unbounded loop". -/

def read_uint16 (data : List ℕ) (offset : ℕ) : Except String ℕ :=
  if offset + 1 ≥ data.length then Except.error "read_uint16 exceeds bounds"
  else Except.ok ((data.getD offset 0) <<< 8 ||| data.getD (offset + 1) 0)

def read_uint32 (data : List ℕ) (offset : ℕ) : Except String ℕ :=
  if offset + 3 ≥ data.length then Except.error "read_uint32 exceeds bounds"
  else Except.ok ((data.getD offset 0) <<< 24 ||| (data.getD (offset + 1) 0) <<< 16 |||
    (data.getD (offset + 2) 0) <<< 8 ||| data.getD (offset + 3) 0)

def rdnLoop (data : List ℕ) (fuel : ℕ) (offset : ℕ) (jumped : Bool)
    (jumpOff jumps : ℕ) (acc : List ℕ) :
    Option (Except String (List ℕ × ℕ)) :=
  match fuel with
  | 0 => none
  | fuel + 1 =>
      if offset ≥ data.length then
        some (Except.error "DNS name reading exceeds bounds")
      else
        if data.getD offset 0 = 0 then
          some (Except.ok (acc, if jumped then jumpOff else offset + 1))
        else if data.getD offset 0 &&& 192 = 192 then
          if offset + 1 ≥ data.length then
            some (Except.error "DNS pointer exceeds bounds")
          else
            if jumps + 1 > 5 then
              some (Except.error "Too many DNS pointer jumps")
            else rdnLoop data fuel
              ((data.getD offset 0 &&& 63) <<< 8 ||| data.getD (offset + 1) 0)
              true (if jumped then jumpOff else offset + 2) (jumps + 1) acc
        else
          if offset + 1 + data.getD offset 0 > data.length then
            some (Except.error "DNS label length exceeds bounds")
          else
            rdnLoop data fuel (offset + 1 + data.getD offset 0) jumped jumpOff
              jumps (if acc = [] then (data.drop (offset + 1)).take (data.getD offset 0)
                else acc ++ [dotByte] ++ (data.drop (offset + 1)).take (data.getD offset 0))

def rdnFuel (data : List ℕ) : ℕ := 7 * (data.length + 1) + 1

/-- Returns the parsed name and the number of bytes consumed at the original
offset (`jump_offset`-aware), as `read_domain_name` does. -/
def read_domain_name (data : List ℕ) (offset : ℕ) :
    Except String (List ℕ × ℕ) :=
  match rdnLoop data (rdnFuel data) offset false 0 0 [] with
  | none => Except.error "unreachable: fuel exhausted"
  | some (Except.error e) => Except.error e
  | some (Except.ok (name, resume)) => Except.ok (name, resume - offset)

def rdnMeasure (data : List ℕ) (jumps offset : ℕ) : ℕ :=
  (6 - jumps) * (data.length + 1) + (data.length - offset) + 1

/-- The fuelled name reader never runs out of fuel when started with at
least `rdnMeasure` fuel: the parser does a bounded amount of work for every
input. -/
def skip_questions (data : List ℕ) : ℕ → ℕ → Except String ℕ
  | 0, offset => Except.ok offset
  | n + 1, offset =>
      match read_domain_name data offset with
      | Except.error e => Except.error e
      | Except.ok (_, consumed) => skip_questions data n (offset + consumed + 4)

def read_answers (data : List ℕ) : ℕ → ℕ → Except String (List DnsResourceRecord)
  | 0, _ => Except.ok []
  | n + 1, offset =>
      match read_domain_name data offset with
      | Except.error e => Except.error e
      | Except.ok (name, consumed) =>
          let o := offset + consumed
          match read_uint16 data o, read_uint16 data (o + 2),
              read_uint32 data (o + 4), read_uint16 data (o + 8) with
          | Except.ok ty, Except.ok cls, Except.ok ttl, Except.ok rdlength =>
              if o + 10 + rdlength > data.length then
                Except.error "RDATA length exceeds response size"
              else
                match read_answers data n (o + 10 + rdlength) with
                | Except.error e => Except.error e
                | Except.ok rest =>
                    Except.ok ({ name := name
                                 type := ty
                                 cls := cls
                                 ttl := ttl
                                 rdata := (data.drop (o + 10)).take rdlength } :: rest)
          | Except.error e, _, _, _ => Except.error e
          | _, Except.error e, _, _ => Except.error e
          | _, _, Except.error e, _ => Except.error e
          | _, _, _, Except.error e => Except.error e

def parse_response (response : List ℕ) :
    Except String (List DnsResourceRecord) :=
  if response.length < 12 then Except.error "DNS response too short"
  else
    let qd := (response.getD 4 0) <<< 8 ||| response.getD 5 0
    let an := (response.getD 6 0) <<< 8 ||| response.getD 7 0
    match skip_questions response qd 12 with
    | Except.error e => Except.error e
    | Except.ok o => read_answers response an o

/-! ## Claims -/

/-- Literal `EncodingConfig` builder used in concrete claim instances. -/
def mkConfig (s : EncodingStrategy) (mf : ℕ) (comp rand : Bool) (nr : ℚ) :
    EncodingConfig :=
  { strategy := s
    max_txt_length := 255
    max_fragments := mf
    use_compression := comp
    randomize_order := rand
    noise_ratio := nr }

/-- C10: for every config and base domain, `encode_payload` on the empty
payload returns `PayloadTooLarge` (and hence no fragments): the empty input
is rejected up front, with the counter-intuitive "too large" error kind. -/
theorem keyInsert_perm {α : Type} (key : α → ℕ) (a : α) (l : List α) :
    List.Perm (keyInsert key a l) (a :: l) := by
  induction l with
  | nil => simp [keyInsert]
  | cons b t ih =>
      by_cases h : key a ≤ key b
      · simp [keyInsert, h]
      · rw [keyInsert, if_neg h]
        exact (ih.cons b).trans (List.Perm.swap a b t)

theorem keySort_perm {α : Type} (key : α → ℕ) (l : List α) :
    List.Perm (keySort key l) l := by
  induction l with
  | nil => simp [keySort]
  | cons a t ih =>
      exact (keyInsert_perm key a (keySort key t)).trans (ih.cons a)

theorem keyInsert_pairwise {α : Type} (key : α → ℕ) (a : α) (l : List α)
    (h : l.Pairwise (fun x y => key x ≤ key y)) :
    (keyInsert key a l).Pairwise (fun x y => key x ≤ key y) := by
  induction l with
  | nil => simp [keyInsert]
  | cons b t ih =>
      rcases List.pairwise_cons.mp h with ⟨hb, ht⟩
      by_cases hab : key a ≤ key b
      · rw [keyInsert, if_pos hab]
        refine List.pairwise_cons.mpr ⟨?_, h⟩
        intro x hx
        rcases List.mem_cons.mp hx with hx | hx
        · exact hx ▸ hab
        · exact le_trans hab (hb x hx)
      · rw [keyInsert, if_neg hab]
        refine List.pairwise_cons.mpr ⟨?_, ih ht⟩
        intro x hx
        have hx2 := (keyInsert_perm key a t).mem_iff.mp hx
        rcases List.mem_cons.mp hx2 with hx2 | hx2
        · exact hx2 ▸ le_of_not_le hab
        · exact hb x hx2

theorem keySort_pairwise {α : Type} (key : α → ℕ) (l : List α) :
    (keySort key l).Pairwise (fun x y => key x ≤ key y) := by
  induction l with
  | nil => simp [keySort]
  | cons a t ih => exact keyInsert_pairwise key a (keySort key t) ih

theorem keyInsert_filter_of_key {α : Type} (key : α → ℕ) (a : α) (l : List α)
    (c : ℕ) (ha : key a = c) :
    (keyInsert key a l).filter (fun x => key x = c) =
      a :: l.filter (fun x => key x = c) := by
  induction l with
  | nil => simp [keyInsert, ha]
  | cons b t ih =>
      by_cases hab : key a ≤ key b
      · rw [keyInsert, if_pos hab, List.filter_cons_of_pos (by simpa using ha)]
      · have hbc : ¬ (key b = c) := by
          intro hbc
          exact hab (le_of_eq (ha.trans hbc.symm))
        rw [keyInsert, if_neg hab, List.filter_cons_of_neg (by simpa using hbc),
          ih, List.filter_cons_of_neg (by simpa using hbc)]

theorem keyInsert_filter_of_ne {α : Type} (key : α → ℕ) (a : α) (l : List α)
    (c : ℕ) (ha : ¬ (key a = c)) :
    (keyInsert key a l).filter (fun x => key x = c) =
      l.filter (fun x => key x = c) := by
  induction l with
  | nil => simp [keyInsert, ha]
  | cons b t ih =>
      by_cases hab : key a ≤ key b
      · rw [keyInsert, if_pos hab, List.filter_cons_of_neg (by simpa using ha)]
      · by_cases hbc : key b = c
        · rw [keyInsert, if_neg hab, List.filter_cons_of_pos (by simpa using hbc),
            ih, List.filter_cons_of_pos (by simpa using hbc)]
        · rw [keyInsert, if_neg hab, List.filter_cons_of_neg (by simpa using hbc),
            ih, List.filter_cons_of_neg (by simpa using hbc)]

/-- Stability of `keySort`: the subsequence of elements with any fixed key
is returned in its input order. -/
theorem keySort_filter_key {α : Type} (key : α → ℕ) (l : List α) (c : ℕ) :
    (keySort key l).filter (fun x => key x = c) =
      l.filter (fun x => key x = c) := by
  induction l with
  | nil => simp [keySort]
  | cons a t ih =>
      by_cases ha : key a = c
      · rw [keySort, keyInsert_filter_of_key key a _ c ha, ih,
          List.filter_cons_of_pos (by simpa using ha)]
      · rw [keySort, keyInsert_filter_of_ne key a _ c ha, ih,
          List.filter_cons_of_neg (by simpa using ha)]

/-- Two lists that are permutations of each other and both strictly sorted on
a key are equal (uniqueness of the sorted arrangement when keys are
distinct). -/
theorem eq_of_perm_of_pairwise_lt {α : Type} (key : α → ℕ) (l₁ l₂ : List α)
    (hp : List.Perm l₁ l₂) (h₁ : l₁.Pairwise (fun x y => key x < key y))
    (h₂ : l₂.Pairwise (fun x y => key x < key y)) : l₁ = l₂ := by
  haveI : IsAntisymm α (fun x y => key x < key y ∨ x = y) := by
    refine ⟨?_⟩
    intro a b hab hba
    rcases hab with hab | hab
    · rcases hba with hba | hba
      · exact absurd hba (lt_asymm hab)
      · exact hba.symm
    · exact hab
  exact List.eq_of_perm_of_sorted (r := fun x y => key x < key y ∨ x = y) hp
    (List.Pairwise.imp (fun h => Or.inl h) h₁)
    (List.Pairwise.imp (fun h => Or.inl h) h₂)

/-! ### `std::shuffle` (Fisher–Yates) as used by `randomize_fragment_order`

`std::shuffle(first, last, gen)` swaps position `i` (for `i = n-1 … 1`) with
a uniformly drawn position `j ≤ i`; the draw for position `i` is rendered as
`g i % (i + 1)`.  All claims about shuffling quantify over the whole draw
stream `g`, so only the fact that the result is a permutation matters. -/

theorem set_self_of_getElem {α : Type} :
    ∀ (l : List α) (i : ℕ) (x : α), l[i]? = some x → l.set i x = l := by
  intro l
  induction l with
  | nil => intro i x h; simp at h
  | cons a t ih =>
      intro i x h
      cases i with
      | zero => simp at h; simp [h]
      | succ m =>
          simp only [List.getElem?_cons_succ] at h
          simp [List.set_cons_succ, ih m x h]

theorem swap_head_perm {α : Type} (a : α) :
    ∀ (t : List α) (j : ℕ) (y : α), t[j]? = some y →
      List.Perm (y :: t.set j a) (a :: t) := by
  intro t
  induction t with
  | nil => intro j y h; simp at h
  | cons b t' ih =>
      intro j y h
      cases j with
      | zero =>
          simp only [List.getElem?_cons_zero, Option.some_inj] at h
          rw [List.set_cons_zero, ← h]
          exact List.Perm.swap a b t'
      | succ k =>
          simp only [List.getElem?_cons_succ] at h
          have h1 : List.Perm (y :: b :: t'.set k a) (b :: y :: t'.set k a) :=
            List.Perm.swap b y _
          have h2 : List.Perm (b :: y :: t'.set k a) (b :: a :: t') :=
            (ih k y h).cons b
          have h3 : List.Perm (b :: a :: t') (a :: b :: t') :=
            List.Perm.swap a b t'
          exact (h1.trans h2).trans h3

theorem listSwap_perm {α : Type} :
    ∀ (l : List α) (i j : ℕ), List.Perm (listSwap l i j) l := by
  intro l
  induction l with
  | nil => intro i j; simp [listSwap]
  | cons a t ih =>
      intro i j
      cases i with
      | zero =>
          cases j with
          | zero => simp [listSwap]
          | succ k =>
              rcases h : t[k]? with _ | y
              · simp [listSwap, h]
              · simp only [listSwap, List.getElem?_cons_zero,
                  List.getElem?_cons_succ, h, List.set_cons_zero,
                  List.set_cons_succ]
                exact swap_head_perm a t k y h
      | succ m =>
          cases j with
          | zero =>
              rcases h : t[m]? with _ | x
              · simp [listSwap, h]
              · simp only [listSwap, List.getElem?_cons_zero,
                  List.getElem?_cons_succ, h, List.set_cons_zero,
                  List.set_cons_succ]
                exact swap_head_perm a t m x h
          | succ k =>
              rcases hx : t[m]? with _ | x
              · simp [listSwap, hx]
              · rcases hy : t[k]? with _ | y
                · simp [listSwap, hx, hy]
                · have hres : listSwap (a :: t) (m + 1) (k + 1) =
                      a :: listSwap t m k := by
                    simp [listSwap, hx, hy]
                  rw [hres]
                  exact (ih m k).cons a

theorem shuffleGo_perm {α : Type} (g : ℕ → ℕ) :
    ∀ (i : ℕ) (l : List α), List.Perm (shuffleGo g l i) l := by
  intro i
  induction i with
  | zero => intro l; simp [shuffleGo]
  | succ m ih =>
      intro l
      exact (ih _).trans (listSwap_perm l (m + 1) (g (m + 1) % (m + 2)))

/-! ### Bitwise bridging lemmas -/

theorem and_two_pow_sub_one (x k : ℕ) : x &&& (2 ^ k - 1) = x % 2 ^ k := by
  apply Nat.eq_of_testBit_eq
  intro i
  rw [Nat.testBit_and, Nat.testBit_mod_two_pow, Nat.testBit_two_pow_sub_one,
    Bool.and_comm]

theorem or_eq_add_of_lt {q y : ℕ} (k : ℕ) (hy : y < 2 ^ k) :
    (2 ^ k * q) ||| y = 2 ^ k * q + y := by
  apply Nat.eq_of_testBit_eq
  intro i
  rw [Nat.testBit_or, Nat.testBit_mul_pow_two_add q hy i]
  by_cases h : i < k
  · have hq : (2 ^ k * q).testBit i = false := by
      have := Nat.testBit_mul_pow_two_add q (show 0 < 2 ^ k from Nat.pos_pow_of_pos k (by norm_num)) i
      have h0 : 2 ^ k * q + 0 = 2 ^ k * q := by ring
      have := Nat.testBit_mul_pow_two_add (b := 0) q (Nat.pos_pow_of_pos k (by norm_num)) i
      rw [Nat.add_zero] at this
      rw [this, if_pos h, Nat.zero_testBit]
    rw [hq, if_pos h, Bool.false_or]
  · have hy2 : y.testBit i = false := by
      apply Nat.testBit_lt_two_pow
      exact lt_of_lt_of_le hy (Nat.pow_le_pow_right (by norm_num) (le_of_not_lt h))
    have hq : (2 ^ k * q).testBit i = q.testBit (i - k) := by
      have := Nat.testBit_mul_pow_two_add (b := 0) q (Nat.pos_pow_of_pos k (by norm_num)) i
      rw [Nat.add_zero] at this
      rw [this, if_neg h]
    rw [hq, if_neg h, hy2, Bool.or_false]

/-! ### Byte-string helpers

`std::string` and `std::vector<uint8_t>` are both byte sequences; they are
modelled uniformly as `List ℕ` of ASCII codes / byte values. -/

theorem hexDigitByte_range (d : ℕ) (hd : d < 16) :
    (48 ≤ hexDigitByte d ∧ hexDigitByte d ≤ 57) ∨
      (97 ≤ hexDigitByte d ∧ hexDigitByte d ≤ 102) := by
  unfold hexDigitByte
  by_cases h : d < 10
  · rw [if_pos h]; omega
  · rw [if_neg h]; omega

theorem toHexBytes_range (n : ℕ) :
    ∀ b ∈ toHexBytes n, (48 ≤ b ∧ b ≤ 57) ∨ (97 ≤ b ∧ b ≤ 102) := by
  induction n using Nat.strong_induction_on with
  | _ n ih =>
      intro b hb
      rw [toHexBytes] at hb
      by_cases h : n < 16
      · rw [dif_pos h] at hb
        rcases List.mem_singleton.mp hb with rfl
        exact hexDigitByte_range n h
      · rw [dif_neg h] at hb
        rcases List.mem_append.mp hb with hb | hb
        · exact ih (n / 16) (Nat.div_lt_self (by omega) (by norm_num)) b hb
        · rcases List.mem_singleton.mp hb with rfl
          exact hexDigitByte_range (n % 16) (Nat.mod_lt n (by norm_num))

theorem toDecBytes_range (n : ℕ) :
    ∀ b ∈ toDecBytes n, 48 ≤ b ∧ b ≤ 57 := by
  induction n using Nat.strong_induction_on with
  | _ n ih =>
      intro b hb
      rw [toDecBytes] at hb
      by_cases h : n < 10
      · rw [dif_pos h] at hb
        rcases List.mem_singleton.mp hb with rfl
        omega
      · rw [dif_neg h] at hb
        rcases List.mem_append.mp hb with hb | hb
        · exact ih (n / 10) (Nat.div_lt_self (by omega) (by norm_num)) b hb
        · rcases List.mem_singleton.mp hb with rfl
          have := Nat.mod_lt n (show 0 < 10 by norm_num)
          omega

theorem toHexBytes_ne_nil (n : ℕ) : toHexBytes n ≠ [] := by
  rw [toHexBytes]
  by_cases h : n < 16
  · rw [dif_pos h]; simp
  · rw [dif_neg h]; simp

/-! ### Base64 (`include/chimera/base64.hpp`)

`Base64::encode` / `Base64::decode` over byte lists.  In `decode`, a `'='`
in one of the first two positions of a 4-character group makes the C++ code
left-shift a negative `int` (undefined behavior); that unreachable-for-valid-
input path is modelled as a decode failure (`none`, i.e. an exception). -/

theorem and63 (x : ℕ) : x &&& 63 = x % 64 := by
  have := and_two_pow_sub_one x 6
  norm_num at this
  exact this

theorem and255 (x : ℕ) : x &&& 255 = x % 256 := by
  have := and_two_pow_sub_one x 8
  norm_num at this
  exact this

theorem or_eq_add_of_mod {x y : ℕ} (k : ℕ) (hx : x % 2 ^ k = 0)
    (hy : y < 2 ^ k) : x ||| y = x + y := by
  obtain ⟨q, hq⟩ := Nat.dvd_of_mod_eq_zero hx
  subst hq
  exact or_eq_add_of_lt k hy

theorem b64char_val (v : ℕ) (hv : v < 64) :
    b64val (b64char v) = some v ∧ b64char v ≠ padByte := by
  have h : ∀ w : Fin 64, b64val (b64char w.val) = some w.val ∧
      b64char w.val ≠ padByte := by decide
  exact h ⟨v, hv⟩

theorem or_add_16 {x y : ℕ} (hx : x % 65536 = 0) (hy : y < 65536) :
    x ||| y = x + y :=
  or_eq_add_of_mod 16 (by show x % 65536 = 0; exact hx)
    (by show y < 65536; exact hy)

theorem or_add_18 {x y : ℕ} (hx : x % 262144 = 0) (hy : y < 262144) :
    x ||| y = x + y :=
  or_eq_add_of_mod 18 (by show x % 262144 = 0; exact hx)
    (by show y < 262144; exact hy)

theorem or_add_12 {x y : ℕ} (hx : x % 4096 = 0) (hy : y < 4096) :
    x ||| y = x + y :=
  or_eq_add_of_mod 12 (by show x % 4096 = 0; exact hx)
    (by show y < 4096; exact hy)

theorem or_add_8 {x y : ℕ} (hx : x % 256 = 0) (hy : y < 256) :
    x ||| y = x + y :=
  or_eq_add_of_mod 8 (by show x % 256 = 0; exact hx)
    (by show y < 256; exact hy)

theorem or_add_6 {x y : ℕ} (hx : x % 64 = 0) (hy : y < 64) :
    x ||| y = x + y :=
  or_eq_add_of_mod 6 (by show x % 64 = 0; exact hx)
    (by show y < 64; exact hy)

theorem shl8 (x : ℕ) : x <<< 8 = x * 256 := by
  rw [Nat.shiftLeft_eq]

theorem shl16 (x : ℕ) : x <<< 16 = x * 65536 := by
  rw [Nat.shiftLeft_eq]

theorem shl6 (x : ℕ) : x <<< 6 = x * 64 := by
  rw [Nat.shiftLeft_eq]

theorem shl12 (x : ℕ) : x <<< 12 = x * 4096 := by
  rw [Nat.shiftLeft_eq]

theorem shl18 (x : ℕ) : x <<< 18 = x * 262144 := by
  rw [Nat.shiftLeft_eq]

theorem shr6 (x : ℕ) : x >>> 6 = x / 64 := by
  rw [Nat.shiftRight_eq_div_pow]

theorem shr8 (x : ℕ) : x >>> 8 = x / 256 := by
  rw [Nat.shiftRight_eq_div_pow]

theorem shr12 (x : ℕ) : x >>> 12 = x / 4096 := by
  rw [Nat.shiftRight_eq_div_pow]

theorem shr16 (x : ℕ) : x >>> 16 = x / 65536 := by
  rw [Nat.shiftRight_eq_div_pow]

theorem shr18 (x : ℕ) : x >>> 18 = x / 262144 := by
  rw [Nat.shiftRight_eq_div_pow]

theorem b64block_eq (a a2 a3 : ℕ) (hb : a2 < 256) (hc : a3 < 256) :
    a <<< 16 ||| a2 <<< 8 ||| a3 = a * 65536 + a2 * 256 + a3 := by
  have h1 : a * 65536 ||| a2 * 256 = a * 65536 + a2 * 256 :=
    or_add_16 (by omega) (by omega)
  rw [shl16, shl8, h1, or_add_8 (by omega) hc]

theorem b64quad_eq (v0 v1 v2 v3 : ℕ) (h1 : v1 < 64) (h2 : v2 < 64)
    (h3 : v3 < 64) :
    v0 <<< 18 ||| v1 <<< 12 ||| v2 <<< 6 ||| v3 =
      v0 * 262144 + v1 * 4096 + v2 * 64 + v3 := by
  have e1 : v0 * 262144 ||| v1 * 4096 = v0 * 262144 + v1 * 4096 :=
    or_add_18 (by omega) (by omega)
  have e2 : v0 * 262144 + v1 * 4096 ||| v2 * 64 =
      v0 * 262144 + v1 * 4096 + v2 * 64 := or_add_12 (by omega) (by omega)
  rw [shl18, shl12, shl6, e1, e2, or_add_6 (by omega) h3]

theorem b64tri_eq (v0 v1 v2 : ℕ) (h1 : v1 < 64) (h2 : v2 < 64) :
    v0 <<< 18 ||| v1 <<< 12 ||| v2 <<< 6 =
      v0 * 262144 + v1 * 4096 + v2 * 64 := by
  have e1 : v0 * 262144 ||| v1 * 4096 = v0 * 262144 + v1 * 4096 :=
    or_add_18 (by omega) (by omega)
  rw [shl18, shl12, shl6, e1, or_add_12 (by omega) (by omega)]

theorem b64duo_eq (v0 v1 : ℕ) (h1 : v1 < 64) :
    v0 <<< 18 ||| v1 <<< 12 = v0 * 262144 + v1 * 4096 := by
  rw [shl18, shl12, or_add_18 (by omega) (by omega)]

theorem b64decode4_encode3 (a a2 a3 : ℕ) (ha : a < 256) (hb : a2 < 256)
    (hc : a3 < 256) :
    b64decode4 (b64char ((a <<< 16 ||| a2 <<< 8 ||| a3) >>> 18 &&& 63))
      (b64char ((a <<< 16 ||| a2 <<< 8 ||| a3) >>> 12 &&& 63))
      (b64char ((a <<< 16 ||| a2 <<< 8 ||| a3) >>> 6 &&& 63))
      (b64char ((a <<< 16 ||| a2 <<< 8 ||| a3) &&& 63)) = some [a, a2, a3] := by
  rw [b64block_eq a a2 a3 hb hc]
  rw [shr18, shr12, shr6, and63, and63, and63, and63]
  obtain ⟨hv0, hp0⟩ := b64char_val ((a * 65536 + a2 * 256 + a3) / 262144 % 64)
    (Nat.mod_lt _ (by norm_num))
  obtain ⟨hv1, hp1⟩ := b64char_val ((a * 65536 + a2 * 256 + a3) / 4096 % 64)
    (Nat.mod_lt _ (by norm_num))
  obtain ⟨hv2, hp2⟩ := b64char_val ((a * 65536 + a2 * 256 + a3) / 64 % 64)
    (Nat.mod_lt _ (by norm_num))
  obtain ⟨hv3, hp3⟩ := b64char_val ((a * 65536 + a2 * 256 + a3) % 64)
    (Nat.mod_lt _ (by norm_num))
  simp only [b64decode4, hv0, hv1, hv2, hv3]
  rw [if_neg hp2, if_neg hp3]
  rw [b64quad_eq _ _ _ _ (Nat.mod_lt _ (by norm_num)) (Nat.mod_lt _ (by norm_num))
    (Nat.mod_lt _ (by norm_num))]
  rw [shr16, shr8, and255, and255, and255]
  have e1 : ((a * 65536 + a2 * 256 + a3) / 262144 % 64) * 262144 +
      ((a * 65536 + a2 * 256 + a3) / 4096 % 64) * 4096 +
      ((a * 65536 + a2 * 256 + a3) / 64 % 64) * 64 +
      (a * 65536 + a2 * 256 + a3) % 64 = a * 65536 + a2 * 256 + a3 := by
    omega
  rw [e1]
  have e2 : (a * 65536 + a2 * 256 + a3) / 65536 % 256 = a := by omega
  have e3 : (a * 65536 + a2 * 256 + a3) / 256 % 256 = a2 := by omega
  have e4 : (a * 65536 + a2 * 256 + a3) % 256 = a3 := by omega
  rw [e2, e3, e4]

theorem b64decode4_encode2 (a a2 : ℕ) (ha : a < 256) (hb : a2 < 256) :
    b64decode4 (b64char ((a <<< 16 ||| a2 <<< 8) >>> 18 &&& 63))
      (b64char ((a <<< 16 ||| a2 <<< 8) >>> 12 &&& 63))
      (b64char ((a <<< 16 ||| a2 <<< 8) >>> 6 &&& 63)) padByte = some [a, a2] := by
  have hbl : a <<< 16 ||| a2 <<< 8 = a * 65536 + a2 * 256 := by
    rw [shl16, shl8, or_add_16 (by omega) (by omega)]
  rw [hbl, shr18, shr12, shr6, and63, and63, and63]
  obtain ⟨hv0, hp0⟩ := b64char_val ((a * 65536 + a2 * 256) / 262144 % 64)
    (Nat.mod_lt _ (by norm_num))
  obtain ⟨hv1, hp1⟩ := b64char_val ((a * 65536 + a2 * 256) / 4096 % 64)
    (Nat.mod_lt _ (by norm_num))
  obtain ⟨hv2, hp2⟩ := b64char_val ((a * 65536 + a2 * 256) / 64 % 64)
    (Nat.mod_lt _ (by norm_num))
  simp only [b64decode4, hv0, hv1, hv2]
  rw [if_neg hp2]
  simp only [if_true]
  rw [b64tri_eq _ _ _ (Nat.mod_lt _ (by norm_num)) (Nat.mod_lt _ (by norm_num))]
  rw [shr16, shr8, and255, and255]
  have e2 : (((a * 65536 + a2 * 256) / 262144 % 64) * 262144 +
      ((a * 65536 + a2 * 256) / 4096 % 64) * 4096 +
      ((a * 65536 + a2 * 256) / 64 % 64) * 64) / 65536 % 256 = a := by omega
  have e3 : (((a * 65536 + a2 * 256) / 262144 % 64) * 262144 +
      ((a * 65536 + a2 * 256) / 4096 % 64) * 4096 +
      ((a * 65536 + a2 * 256) / 64 % 64) * 64) / 256 % 256 = a2 := by omega
  rw [e2, e3]

theorem b64decode4_encode1 (a : ℕ) (ha : a < 256) :
    b64decode4 (b64char ((a <<< 16) >>> 18 &&& 63))
      (b64char ((a <<< 16) >>> 12 &&& 63)) padByte padByte = some [a] := by
  rw [shl16, shr18, shr12, and63, and63]
  obtain ⟨hv0, hp0⟩ := b64char_val (a * 65536 / 262144 % 64)
    (Nat.mod_lt _ (by norm_num))
  obtain ⟨hv1, hp1⟩ := b64char_val (a * 65536 / 4096 % 64)
    (Nat.mod_lt _ (by norm_num))
  simp only [b64decode4, hv0, hv1]
  simp only [if_true]
  rw [b64duo_eq _ _ (Nat.mod_lt _ (by norm_num))]
  rw [shr16, and255]
  have e2 : ((a * 65536 / 262144 % 64) * 262144 +
      (a * 65536 / 4096 % 64) * 4096) / 65536 % 256 = a := by omega
  rw [e2]

theorem b64encode_length_mod (p : List ℕ) : (b64encode p).length % 4 = 0 := by
  induction p using b64encode.induct with
  | case1 => simp [b64encode]
  | case2 a => simp [b64encode]
  | case3 a a2 => simp [b64encode]
  | case4 a a2 a3 rest ih =>
      rw [b64encode]
      simp only [List.length_cons]
      omega

theorem b64decodeAux_encode (p : List ℕ) (hp : ∀ x ∈ p, x < 256) :
    b64decodeAux (b64encode p) = some p := by
  induction p using b64encode.induct with
  | case1 => rfl
  | case2 a =>
      have ha : a < 256 := hp a (by simp)
      rw [b64encode]
      show (b64decode4 _ _ _ _).bind _ = _
      rw [b64decode4_encode1 a ha]
      rfl
  | case3 a a2 =>
      have ha : a < 256 := hp a (by simp)
      have hb : a2 < 256 := hp a2 (by simp)
      rw [b64encode]
      show (b64decode4 _ _ _ _).bind _ = _
      rw [b64decode4_encode2 a a2 ha hb]
      rfl
  | case4 a a2 a3 rest ih =>
      have ha : a < 256 := hp a (by simp)
      have hb : a2 < 256 := hp a2 (by simp)
      have hc : a3 < 256 := hp a3 (by simp)
      have hrest : ∀ x ∈ rest, x < 256 := by
        intro x hx
        exact hp x (by simp [hx])
      rw [b64encode]
      show (b64decode4 _ _ _ _).bind _ = _
      rw [b64decode4_encode3 a a2 a3 ha hb hc]
      show (b64decodeAux (b64encode rest)).bind _ = _
      rw [ih hrest]
      rfl

/-- `Base64::decode (Base64::encode p) = p` for byte payloads. -/
theorem b64decode_encode (p : List ℕ) (hp : ∀ x ∈ p, x < 256) :
    b64decode (b64encode p) = some p := by
  rw [b64decode, if_pos (b64encode_length_mod p), b64decodeAux_encode p hp]

theorem b64decodeAux_append :
    ∀ (x y : List ℕ), x.length % 4 = 0 →
      b64decodeAux (x ++ y) =
        (b64decodeAux x).bind (fun a => (b64decodeAux y).map (fun b => a ++ b)) := by
  have H : ∀ (n : ℕ) (x y : List ℕ), x.length = n → n % 4 = 0 →
      b64decodeAux (x ++ y) =
        (b64decodeAux x).bind (fun a => (b64decodeAux y).map (fun b => a ++ b)) := by
    intro n
    induction n using Nat.strong_induction_on with
    | _ n ih =>
        intro x y hlen hmod
        match x with
        | [] =>
            simp only [List.nil_append, b64decodeAux, Option.some_bind]
            cases b64decodeAux y <;> rfl
        | [c0] => simp at hlen; omega
        | [c0, c1] => simp at hlen; omega
        | [c0, c1, c2] => simp at hlen; omega
        | c0 :: c1 :: c2 :: c3 :: rest =>
            have hrl : rest.length = n - 4 := by
              simp only [List.length_cons] at hlen
              omega
            have hn4 : n - 4 < n := by
              simp only [List.length_cons] at hlen
              omega
            have hm4 : (n - 4) % 4 = 0 := by
              simp only [List.length_cons] at hlen
              omega
            show (b64decode4 c0 c1 c2 c3).bind _ =
              ((b64decode4 c0 c1 c2 c3).bind _).bind _
            cases hb4 : b64decode4 c0 c1 c2 c3 with
            | none => rfl
            | some b =>
                simp only [Option.some_bind]
                rw [show rest.append y = rest ++ y from rfl,
                  ih (n - 4) hn4 rest y hrl hm4]
                cases har : b64decodeAux rest with
                | none => rfl
                | some ra =>
                    cases hay : b64decodeAux y with
                    | none => rfl
                    | some rb => simp [List.append_assoc]
  intro x y hx
  exact H x.length x y rfl hx

/-! ### CRC32 (`SteganographicEncoder::calculate_checksum`)

A faithful rendering of the bit-by-bit CRC32 loop: initial value
`0xFFFFFFFF`, reflected polynomial `0xEDB88320`, final xor `0xFFFFFFFF`,
result serialised in little-endian byte order. -/

theorem and1_mod (x : ℕ) : x &&& 1 = x % 2 := by
  simpa using and_two_pow_sub_one x 1

theorem shr1 (x : ℕ) : x >>> 1 = x / 2 := by
  rw [Nat.shiftRight_eq_div_pow]

theorem xor_shr (a b n : ℕ) : (a ^^^ b) >>> n = (a >>> n) ^^^ (b >>> n) := by
  apply Nat.eq_of_testBit_eq
  intro i
  simp [Nat.testBit_shiftRight, Nat.testBit_xor]

theorem xor_xor_cancel (x y p : ℕ) : (x ^^^ p) ^^^ (y ^^^ p) = x ^^^ y := by
  apply Nat.eq_of_testBit_eq
  intro i
  simp only [Nat.testBit_xor]
  cases x.testBit i <;> cases y.testBit i <;> cases p.testBit i <;> rfl

theorem crcRound_linear (a b : ℕ) :
    crcRound (a ^^^ b) = crcRound a ^^^ crcRound b := by
  have hand : (a ^^^ b) &&& 1 = (a &&& 1) ^^^ (b &&& 1) :=
    Nat.and_xor_distrib_right
  have ha := and1_mod a
  have hb := and1_mod b
  unfold crcRound
  rcases Nat.mod_two_eq_zero_or_one a with h1 | h1 <;>
    rcases Nat.mod_two_eq_zero_or_one b with h2 | h2
  · have hx : (a ^^^ b) &&& 1 = 0 := by rw [hand, ha, hb, h1, h2]; decide
    rw [if_neg (show ¬ ((a ^^^ b) &&& 1 = 1) by omega),
      if_neg (show ¬ (a &&& 1 = 1) by omega),
      if_neg (show ¬ (b &&& 1 = 1) by omega), xor_shr]
  · have hx : (a ^^^ b) &&& 1 = 1 := by rw [hand, ha, hb, h1, h2]; decide
    rw [if_pos (show (a ^^^ b) &&& 1 = 1 by omega),
      if_neg (show ¬ (a &&& 1 = 1) by omega),
      if_pos (show b &&& 1 = 1 by omega), xor_shr, Nat.xor_assoc]
  · have hx : (a ^^^ b) &&& 1 = 1 := by rw [hand, ha, hb, h1, h2]; decide
    rw [if_pos (show (a ^^^ b) &&& 1 = 1 by omega),
      if_pos (show a &&& 1 = 1 by omega),
      if_neg (show ¬ (b &&& 1 = 1) by omega), xor_shr]
    rw [Nat.xor_assoc, Nat.xor_comm (b >>> 1) crcPoly, ← Nat.xor_assoc]
  · have hx : (a ^^^ b) &&& 1 = 0 := by rw [hand, ha, hb, h1, h2]; decide
    rw [if_neg (show ¬ ((a ^^^ b) &&& 1 = 1) by omega),
      if_pos (show a &&& 1 = 1 by omega),
      if_pos (show b &&& 1 = 1 by omega), xor_shr, xor_xor_cancel]

theorem crcRound_lt (c : ℕ) (hc : c < 4294967296) :
    crcRound c < 4294967296 := by
  unfold crcRound
  by_cases h : c &&& 1 = 1
  · rw [if_pos h]
    have h1 : c >>> 1 < 4294967296 := by rw [shr1]; omega
    have := Nat.xor_lt_two_pow (show c >>> 1 < 2 ^ 32 by norm_num; omega)
      (show crcPoly < 2 ^ 32 by norm_num [crcPoly])
    norm_num at this
    exact this
  · rw [if_neg h, shr1]
    omega

theorem crcRound_eq_zero (c : ℕ) (hc : c < 4294967296) (h : crcRound c = 0) :
    c = 0 := by
  unfold crcRound at h
  have hand := and1_mod c
  by_cases h1 : c &&& 1 = 1
  · rw [if_pos h1] at h
    have h2 : c >>> 1 = crcPoly := Nat.xor_eq_zero.mp h
    rw [shr1] at h2
    norm_num [crcPoly] at h2
    omega
  · rw [if_neg h1, shr1] at h
    omega

theorem crcIter_linear (n : ℕ) (a b : ℕ) :
    crcRound^[n] (a ^^^ b) = crcRound^[n] a ^^^ crcRound^[n] b := by
  induction n generalizing a b with
  | zero => rfl
  | succ m ih =>
      rw [Function.iterate_succ_apply, Function.iterate_succ_apply,
        Function.iterate_succ_apply, crcRound_linear, ih]

theorem crcIter_lt (n : ℕ) (c : ℕ) (hc : c < 4294967296) :
    crcRound^[n] c < 4294967296 := by
  induction n generalizing c with
  | zero => exact hc
  | succ m ih =>
      rw [Function.iterate_succ_apply]
      exact ih _ (crcRound_lt c hc)

theorem crcIter_ne_zero (n : ℕ) (c : ℕ) (hc : c < 4294967296) (h : c ≠ 0) :
    crcRound^[n] c ≠ 0 := by
  induction n generalizing c with
  | zero => exact h
  | succ m ih =>
      rw [Function.iterate_succ_apply]
      refine ih _ (crcRound_lt c hc) ?_
      intro h0
      exact h (crcRound_eq_zero c hc h0)

theorem crcFold_diff (l : List ℕ) (c c' : ℕ) :
    (l.foldl crcByteStep c) ^^^ (l.foldl crcByteStep c') =
      crcRound^[8 * l.length] (c ^^^ c') := by
  induction l generalizing c c' with
  | nil => simp
  | cons b t ih =>
      rw [List.foldl_cons, List.foldl_cons, ih]
      have hstep : crcByteStep c b ^^^ crcByteStep c' b =
          crcRound^[8] (c ^^^ c') := by
        unfold crcByteStep
        rw [← crcIter_linear, xor_xor_cancel]
      rw [hstep, ← Function.iterate_add_apply]
      have : 8 * t.length + 8 = 8 * (b :: t).length := by
        simp [List.length_cons]
        ring
      rw [this]

theorem crcFold_lt (l : List ℕ) (c : ℕ) (hc : c < 4294967296)
    (hl : ∀ b ∈ l, b < 256) : l.foldl crcByteStep c < 4294967296 := by
  induction l generalizing c with
  | nil => exact hc
  | cons b t ih =>
      rw [List.foldl_cons]
      refine ih _ ?_ (fun x hx => hl x (by simp [hx]))
      unfold crcByteStep
      apply crcIter_lt
      have hb : b < 4294967296 := lt_trans (hl b (by simp)) (by norm_num)
      have := Nat.xor_lt_two_pow (show c < 2 ^ 32 by norm_num; omega)
        (show b < 2 ^ 32 by norm_num; omega)
      norm_num at this
      exact this

theorem crcAccum_lt (l : List ℕ) (hl : ∀ b ∈ l, b < 256) :
    crcAccum l < 4294967296 := by
  unfold crcAccum
  have h1 : l.foldl crcByteStep 0xFFFFFFFF < 4294967296 :=
    crcFold_lt l _ (by norm_num) hl
  have := Nat.xor_lt_two_pow (show l.foldl crcByteStep 0xFFFFFFFF < 2 ^ 32 by norm_num; omega)
    (show (0xFFFFFFFF : ℕ) < 2 ^ 32 by norm_num)
  norm_num at this
  exact this

/-- Flipping bit `t` of byte `j` changes the CRC32 accumulator. -/
theorem xor_cancel_three (q x m : ℕ) : (q ^^^ (x ^^^ m)) ^^^ (q ^^^ x) = m := by
  apply Nat.eq_of_testBit_eq
  intro i
  simp only [Nat.testBit_xor]
  cases q.testBit i <;> cases x.testBit i <;> cases m.testBit i <;> rfl

theorem crcAccum_flip_ne (d : List ℕ) (j t : ℕ) (hj : j < d.length)
    (ht : t < 8) :
    crcAccum (d.set j (d.getD j 0 ^^^ 2 ^ t)) ≠ crcAccum d := by
  intro heq
  have hfold : (d.set j (d.getD j 0 ^^^ 2 ^ t)).foldl crcByteStep 0xFFFFFFFF =
      d.foldl crcByteStep 0xFFFFFFFF := by
    unfold crcAccum at heq
    have := congrArg (fun z => z ^^^ 0xFFFFFFFF) heq
    simpa [Nat.xor_assoc, Nat.xor_self] using this
  obtain ⟨P, S, x, hdd, hss⟩ : ∃ P S x, d = P ++ x :: S ∧
      d.set j (d.getD j 0 ^^^ 2 ^ t) = P ++ (x ^^^ 2 ^ t) :: S := by
    refine ⟨d.take j, d.drop (j + 1), d.getD j 0, ?_, ?_⟩
    · conv_lhs => rw [← List.take_append_drop j d]
      rw [List.drop_eq_getElem_cons hj, List.getD_eq_getElem d 0 hj]
    · rw [List.set_eq_take_append_cons_drop, if_pos hj]
  rw [hss] at hfold
  conv_rhs at hfold => rw [hdd]
  have hdiff : (P ++ (x ^^^ 2 ^ t) :: S).foldl crcByteStep 0xFFFFFFFF ^^^
      (P ++ x :: S).foldl crcByteStep 0xFFFFFFFF =
      crcRound^[8 * S.length + 8] (2 ^ t) := by
    rw [List.foldl_append, List.foldl_append, List.foldl_cons, List.foldl_cons,
      crcFold_diff]
    have hs : crcByteStep (P.foldl crcByteStep 0xFFFFFFFF) (x ^^^ 2 ^ t) ^^^
        crcByteStep (P.foldl crcByteStep 0xFFFFFFFF) x =
        crcRound^[8] (2 ^ t) := by
      unfold crcByteStep
      rw [← crcIter_linear]
      congr 1
      exact xor_cancel_three _ x (2 ^ t)
    rw [hs, ← Function.iterate_add_apply]
  rw [hfold, Nat.xor_self] at hdiff
  have hne : crcRound^[8 * S.length + 8] (2 ^ t) ≠ 0 := by
    apply crcIter_ne_zero
    · have : (2 : ℕ) ^ t < 2 ^ 8 := Nat.pow_lt_pow_right (by norm_num) ht
      omega
    · positivity
  exact hne hdiff.symm

/-! ### Data model (`include/chimera/dns_packet.hpp`,
`include/chimera/steganography.hpp`)

`DnsType` / `DnsClass` are C++ enums over `uint16_t`; they are modelled by
their numeric values so that casts from raw integers (noise record types,
wire parsing) stay faithful. -/

theorem emrChunkSize_pos (fid len offset : ℕ) (h : offset < len) :
    0 < emrChunkSize fid len offset := by
  unfold emrChunkSize emrCap
  by_cases h0 : fid % 3 = 0
  · rw [if_pos h0]; omega
  · rw [if_neg h0]
    by_cases h1 : fid % 3 = 1
    · rw [if_pos h1]; omega
    · rw [if_neg h1]; omega

/-- The record type selected by `fragment_id % 3`. -/
theorem rdnLoop_fuel (data : List ℕ) :
    ∀ (fuel offset : ℕ) (jumped : Bool) (jumpOff jumps : ℕ) (acc : List ℕ),
      jumps ≤ 5 → rdnMeasure data jumps offset ≤ fuel →
      rdnLoop data fuel offset jumped jumpOff jumps acc ≠ none := by
  intro fuel
  induction fuel with
  | zero =>
      intro offset jumped jumpOff jumps acc hj hm
      unfold rdnMeasure at hm
      omega
  | succ f ih =>
      intro offset jumped jumpOff jumps acc hj hm
      rw [rdnLoop]
      by_cases h1 : offset ≥ data.length
      · simp [h1]
      · rw [if_neg h1]
        by_cases h2 : data.getD offset 0 = 0
        · rw [if_pos h2]
          simp
        · rw [if_neg h2]
          by_cases h3 : data.getD offset 0 &&& 192 = 192
          · rw [if_pos h3]
            by_cases h4 : offset + 1 ≥ data.length
            · rw [if_pos h4]
              simp
            · rw [if_neg h4]
              by_cases h5 : jumps + 1 > 5
              · rw [if_pos h5]
                simp
              · rw [if_neg h5]
                apply ih _ _ _ _ _ (by omega)
                unfold rdnMeasure at hm ⊢
                interval_cases jumps <;> omega
          · rw [if_neg h3]
            by_cases h6 : offset + 1 + data.getD offset 0 > data.length
            · rw [if_pos h6]
              simp
            · rw [if_neg h6]
              apply ih _ _ _ _ _ hj
              unfold rdnMeasure at hm ⊢
              have hlen : 1 ≤ data.getD offset 0 := by omega
              generalize hK : (6 - jumps) * (data.length + 1) = K at hm ⊢
              omega

/-- `read_domain_name` never hits the fuel bound: for every input there is a
definite parse result (success or structured failure). -/
theorem read_domain_name_total (data : List ℕ) (offset : ℕ) :
    ∃ r, rdnLoop data (rdnFuel data) offset false 0 0 [] = some r := by
  have h := rdnLoop_fuel data (rdnFuel data) offset false 0 0 [] (by omega)
    (by unfold rdnMeasure rdnFuel; omega)
  cases hr : rdnLoop data (rdnFuel data) offset false 0 0 [] with
  | none => exact absurd hr h
  | some r => exact ⟨r, rfl⟩

theorem c10_empty_payload_rejected :
    ∀ (cfg : EncodingConfig) (gN gS : ℕ → ℕ) (base_domain : List ℕ),
      encode_payload cfg gN gS [] base_domain =
        Except.error SteganographyError.PayloadTooLarge := by
  intro cfg gN gS base_domain
  simp [encode_payload]

/-- C4: encoding the 7-byte payload `"CHIMERA"` with domain `"example.com"`,
strategy MultiRecord, `max_fragments = 3`, no compression, yields exactly two
fragments: id 0 of type A carrying exactly `"CHIM"`, and id 1 of type AAAA
carrying `"ERA"` zero-padded to 16 bytes; encoding stops because the payload
is exhausted. -/
theorem c4_chimera_scenario : ∀ gN gS : ℕ → ℕ,
    Except.map (List.map (fun f => (f.record_type, f.encoded_data, f.fragment_id)))
      (encode_payload (mkConfig EncodingStrategy.MULTI_RECORD 3 false false 0)
        gN gS (strBytes "CHIMERA") (strBytes "example.com"))
    = Except.ok [(typeA, strBytes "CHIM", 0),
        (typeAAAA, strBytes "ERA" ++ List.replicate 13 0, 1)] := by
  intro gN gS
  simp only [encode_payload, encode_multi_record, mkConfig]
  norm_num
  simp [encode_multi_record_loop, emrChunkSize, emrCap, encode_to_ipv4,
    encode_to_ipv6, strBytes, typeA, typeAAAA, typeTXT, u32]
  simp only [Except.map, List.map]
  decide

/-- C2: `parse_response` is total in bounded work and turns malformed input
into structured failures: inputs shorter than 12 bytes, a 6-hop
compression-pointer chain, an rdata length past the end of the buffer, and a
label running out of bounds each yield an `Except.error`; and the fuelled
name-reading loop always terminates within the `rdnFuel` bound (no unbounded
loop, and by construction every byte access is bounds-checked). -/
theorem c2_parse_response_bounded :
    (∀ r : List ℕ, r.length < 12 →
      parse_response r = Except.error "DNS response too short")
    ∧ parse_response ([0, 0, 0, 0, 0, 1, 0, 0, 0, 0, 0, 0] ++
        [192, 14, 192, 16, 192, 18, 192, 20, 192, 22, 192, 24]) =
      Except.error "Too many DNS pointer jumps"
    ∧ parse_response ([0, 0, 0, 0, 0, 0, 0, 1, 0, 0, 0, 0] ++
        [0, 0, 1, 0, 1, 0, 0, 0, 0, 0, 5]) =
      Except.error "RDATA length exceeds response size"
    ∧ parse_response ([0, 0, 0, 0, 0, 1, 0, 0, 0, 0, 0, 0] ++ [63, 97]) =
      Except.error "DNS label length exceeds bounds"
    ∧ (∀ (data : List ℕ) (offset : ℕ),
        ∃ r, rdnLoop data (rdnFuel data) offset false 0 0 [] = some r) := by
  refine ⟨?_, by decide, by decide, by decide, read_domain_name_total⟩
  intro r hr
  unfold parse_response
  rw [if_pos hr]

/-- C2 witness: the truncated-input case at a concrete 10-byte buffer. -/
theorem c2_witness :
    parse_response [0, 1, 2, 3, 4, 5, 6, 7, 8, 9] =
      Except.error "DNS response too short" :=
  c2_parse_response_bounded.1 [0, 1, 2, 3, 4, 5, 6, 7, 8, 9] (by decide)

theorem validate_iff (l : List EncodedFragment) :
    validate_fragment_sequence l = true ↔
      (l ≠ [] ∧ l.map (fun f => f.fragment_id) = List.range l.length) := by
  unfold validate_fragment_sequence
  cases l with
  | nil => simp
  | cons a t =>
      rw [if_neg (by simp)]
      rw [decide_eq_true_eq]
      constructor
      · intro h
        refine ⟨by simp, ?_⟩
        apply List.ext_getElem
        · simp
        · intro i h1 h2
          simp only [List.getElem_map, List.getElem_range]
          have h3 := h ⟨i, by simpa using h1⟩
          simpa [List.get_eq_getElem] using h3
      · rintro ⟨h1, h2⟩ i
        have hi : i.val < ((a :: t).map (fun f => f.fragment_id)).length := by
          simpa using i.isLt
        have hb : i.val < (List.range (a :: t).length).length := by
          simpa using i.isLt
        have h3 : ((a :: t).map (fun f => f.fragment_id))[i.val] =
            (List.range (a :: t).length)[i.val] := by
          exact List.getElem_of_eq h2 hi
        simp only [List.getElem_map, List.getElem_range] at h3
        simpa [List.get_eq_getElem] using h3

/-- C3: `reconstruct_from_fragments` fails the whole batch with
`FragmentationError` exactly when the fragments, sorted by fragment id, do
not carry ids forming the contiguous range `0..N-1` (any gap, or an empty
fragment set); no partial result exists in that case, and
`extract_from_dns_response` delegates to it. -/
theorem c3_reconstruct_contiguous :
    (∀ fragments : List EncodedFragment,
      reconstruct_from_fragments fragments =
          Except.error SteganographyError.FragmentationError ↔
        ¬(fragments ≠ [] ∧
          (sort_fragments_by_id fragments).map (fun f => f.fragment_id) =
            List.range fragments.length))
    ∧ (∀ records : List DnsResourceRecord,
        extract_from_dns_response records =
          reconstruct_from_fragments (extract_fragments records)) := by
  refine ⟨?_, fun records => rfl⟩
  intro fragments
  have hperm := keySort_perm (fun f : EncodedFragment => f.fragment_id) fragments
  have hlen : (sort_fragments_by_id fragments).length = fragments.length :=
    hperm.length_eq
  have hnil : sort_fragments_by_id fragments = [] ↔ fragments = [] := by
    rw [← List.length_eq_zero, ← List.length_eq_zero, hlen]
  unfold reconstruct_from_fragments
  cases hv : validate_fragment_sequence (sort_fragments_by_id fragments) with
  | true =>
      rw [if_pos hv]
      obtain ⟨h1, h2⟩ := (validate_iff _).mp hv
      constructor
      · intro h
        cases h
      · intro h
        exact absurd ⟨hnil.not.mp h1, by rw [h2, hlen]⟩ h
  | false =>
      rw [if_neg (by rw [hv]; exact Bool.false_ne_true)]
      constructor
      · intro _
        intro hcon
        rcases hcon with ⟨h1, h2⟩
        have : validate_fragment_sequence (sort_fragments_by_id fragments) = true :=
          (validate_iff _).mpr ⟨hnil.not.mpr h1, by rw [h2, hlen]⟩
        rw [hv] at this
        cases this
      · intro _
        rfl

theorem shr24 (x : ℕ) : x >>> 24 = x / 16777216 := by
  rw [Nat.shiftRight_eq_div_pow]

theorem mem_of_mem_set {α : Type} :
    ∀ (l : List α) (i : ℕ) (v b : α), b ∈ l.set i v → b = v ∨ b ∈ l := by
  intro l
  induction l with
  | nil => intro i v b hb; simp at hb
  | cons a t ih =>
      intro i v b hb
      cases i with
      | zero =>
          rw [List.set_cons_zero] at hb
          rcases List.mem_cons.mp hb with rfl | hb2
          · exact Or.inl rfl
          · exact Or.inr (List.mem_cons.mpr (Or.inr hb2))
      | succ m =>
          rw [List.set_cons_succ] at hb
          rcases List.mem_cons.mp hb with rfl | hb2
          · exact Or.inr (by simp)
          · rcases ih m v b hb2 with h | h
            · exact Or.inl h
            · exact Or.inr (by simp [h])

/-- C9: for every byte string `d` and byte string obtained from `d` by
flipping exactly one bit (bit `t` of byte `j`), verifying the flipped data
against `d`'s stored CRC32 checksum fails: the checksum detects every
single-bit corruption of `encoded_data`. -/
theorem c9_checksum_single_bit :
    ∀ (d : List ℕ) (j t : ℕ), j < d.length → t < 8 → (∀ b ∈ d, b < 256) →
      verify_checksum (d.set j (d.getD j 0 ^^^ 2 ^ t))
        (calculate_checksum d) = false := by
  intro d j t hj ht hd
  unfold verify_checksum
  rw [decide_eq_false_iff_not]
  intro heq
  have hb0 : d.getD j 0 < 256 := by
    rw [List.getD_eq_getElem d 0 hj]
    exact hd _ (List.getElem_mem hj)
  have h2t : (2 : ℕ) ^ t < 256 := by
    have : (2 : ℕ) ^ t < 2 ^ 8 := Nat.pow_lt_pow_right (by norm_num) ht
    omega
  have hv : d.getD j 0 ^^^ 2 ^ t < 256 := by
    have := Nat.xor_lt_two_pow (show d.getD j 0 < 2 ^ 8 by omega)
      (show (2 : ℕ) ^ t < 2 ^ 8 by omega)
    omega
  have hd2 : ∀ b ∈ d.set j (d.getD j 0 ^^^ 2 ^ t), b < 256 := by
    intro b hb
    rcases mem_of_mem_set d j _ b hb with rfl | hb2
    · exact hv
    · exact hd b hb2
  have hlt1 : crcAccum d < 4294967296 := crcAccum_lt d hd
  have hlt2 : crcAccum (d.set j (d.getD j 0 ^^^ 2 ^ t)) < 4294967296 :=
    crcAccum_lt _ hd2
  have hne := crcAccum_flip_ne d j t hj ht
  apply hne
  unfold calculate_checksum at heq
  simp only [List.cons.injEq, and_true] at heq
  obtain ⟨e1, e2, e3, e4⟩ := heq
  rw [and255, and255] at e1
  rw [shr8, shr8, and255, and255] at e2
  rw [shr16, shr16, and255, and255] at e3
  rw [shr24, shr24, and255, and255] at e4
  omega

/-- C9 witness: flipping bit 0 of the single byte `0x00`. -/
theorem c9_witness :
    verify_checksum ([(0 : ℕ)].set 0 ((0 : ℕ) ^^^ 2 ^ 0))
      (calculate_checksum [0]) = false :=
  c9_checksum_single_bit [0] 0 0 (by decide) (by decide) (by decide)

/-- C1 counterexample: with strategy MultiRecord, no compression, no noise
and no shuffling, the 3-byte payload `[1, 2, 3]` encodes into one A-record
fragment of 4 bytes, and decoding returns `[1, 2, 3, 0]` — the zero padding
byte of the partial IPv4 chunk is appended, so the round trip does not
reproduce the payload exactly. -/
theorem c1_counterexample :
    Except.map (decode_fragments (mkConfig EncodingStrategy.MULTI_RECORD 10 false false 0))
      (encode_payload (mkConfig EncodingStrategy.MULTI_RECORD 10 false false 0)
        (fun _ => 0) (fun _ => 0) [1, 2, 3] (strBytes "d.com"))
    = Except.ok (some (Except.ok
        { data := [1, 2, 3, 0], original_size := 4, used_record_types := [typeA] }))
    ∧ [1, 2, 3, 0] ≠ [1, 2, 3] := by
  refine ⟨?_, by decide⟩
  simp only [encode_payload, encode_multi_record, mkConfig]
  norm_num
  simp [encode_multi_record_loop, emrChunkSize, emrCap, encode_to_ipv4, u32]
  simp only [Except.map]
  decide

/-- C5 counterexample: with strategy TxtOnly and `noise_ratio = 1`, encoding
the 1-byte payload `[1]` yields exactly one fragment and zero decoy
(sentinel-id) fragments, although `floor(1 × 1) = 1` decoys are claimed:
`encode_txt_only` never calls `add_noise_fragments`. -/
theorem c5_counterexample :
    Except.map (fun l : List EncodedFragment =>
        ((l.filter (fun f => f.fragment_id = sentinelId)).length, l.length))
      (encode_payload (mkConfig EncodingStrategy.TXT_ONLY 10 false false 1)
        (fun _ => 0) (fun _ => 0) [1] [97])
      = Except.ok (0, 1)
    ∧ (((1 : ℚ) * 1).floor.toNat = 1) := by
  refine ⟨?_, by norm_num [Rat.floor]⟩
  have hb : b64encode [1] = [65, 81, 61, 61] := by decide
  have hs : splitChunks [65, 81, 61, 61] = [[65, 81, 61, 61]] := by
    rw [splitChunks]
    simp [padTo4]
  have ht : encode_to_txt_fragments [1] =
      [create_steganographic_txt [65, 81, 61, 61] 0] := by
    simp [encode_to_txt_fragments, hb, hs, u32, List.range_succ]
  simp only [encode_payload, encode_txt_only, mkConfig]
  norm_num
  rw [ht]
  simp [Except.map, u32, sentinelId]

set_option maxRecDepth 16384 in
/-- C7 counterexample: for base domain `"a…a"` of 254 bytes (TxtOnly,
payload `[1]`), the emitted fragment's domain is 260 bytes long, violating
the claimed 253-byte bound (the encoder never validates the base domain). -/
theorem c7_counterexample :
    Except.map (fun l : List EncodedFragment =>
        l.map (fun f => decide (f.domain.length ≤ 253)))
      (encode_payload (mkConfig EncodingStrategy.TXT_ONLY 10 false false 0)
        (fun _ => 0) (fun _ => 0) [1] (List.replicate 254 97))
      = Except.ok [false] := by
  have hb : b64encode [1] = [65, 81, 61, 61] := by decide
  have hs : splitChunks [65, 81, 61, 61] = [[65, 81, 61, 61]] := by
    rw [splitChunks]
    simp [padTo4]
  have ht : encode_to_txt_fragments [1] =
      [create_steganographic_txt [65, 81, 61, 61] 0] := by
    simp [encode_to_txt_fragments, hb, hs, u32, List.range_succ]
  have hx : toHexBytes 0 = [48] := by
    rw [toHexBytes]
    norm_num [hexDigitByte]
  simp only [encode_payload, encode_txt_only, mkConfig]
  norm_num
  rw [ht]
  simp [Except.map, u32, generate_steganographic_subdomain, typeTXT, typeA,
    typeAAAA, hx, strBytes, List.range_succ, List.length_append]

theorem emr_loop_nil (p b : List ℕ) (m offset fid : ℕ)
    (h : ¬ offset < p.length) :
    encode_multi_record_loop p b m offset fid = [] := by
  rw [encode_multi_record_loop, dif_neg h]

theorem emr_loop_cons (p b : List ℕ) (m offset fid : ℕ)
    (h : offset < p.length) :
    encode_multi_record_loop p b m offset fid =
      if (fid + 1) % 4294967296 ≥ m then [emrFrag p b offset fid]
      else emrFrag p b offset fid ::
        encode_multi_record_loop p b m
          (offset + emrChunkSize fid p.length offset) ((fid + 1) % 4294967296) := by
  conv_lhs => rw [encode_multi_record_loop]
  rw [dif_pos h]

theorem emr_loop_length_le (p b : List ℕ) (m : ℕ) :
    ∀ (offset fid : ℕ),
      (encode_multi_record_loop p b m offset fid).length ≤ p.length - offset := by
  have H : ∀ (k offset fid : ℕ), p.length - offset ≤ k →
      (encode_multi_record_loop p b m offset fid).length ≤ p.length - offset := by
    intro k
    induction k with
    | zero =>
        intro offset fid hk
        rw [emr_loop_nil p b m offset fid (by omega)]
        simp
    | succ n ih =>
        intro offset fid hk
        by_cases h : offset < p.length
        · rw [emr_loop_cons p b m offset fid h]
          have hcs := emrChunkSize_pos fid p.length offset h
          by_cases hbr : (fid + 1) % 4294967296 ≥ m
          · rw [if_pos hbr]
            simp
            omega
          · rw [if_neg hbr]
            simp only [List.length_cons]
            have h2 := ih (offset + emrChunkSize fid p.length offset)
              ((fid + 1) % 4294967296) (by omega)
            omega
        · rw [emr_loop_nil p b m offset fid h]
          simp
  intro offset fid
  exact H (p.length - offset) offset fid le_rfl

theorem emr_loop_ids (p b : List ℕ) (m : ℕ) :
    ∀ (offset fid : ℕ), fid + (p.length - offset) < 4294967296 →
      (encode_multi_record_loop p b m offset fid).map (fun f => f.fragment_id) =
        List.range' fid (encode_multi_record_loop p b m offset fid).length := by
  have H : ∀ (k offset fid : ℕ), p.length - offset ≤ k →
      fid + (p.length - offset) < 4294967296 →
      (encode_multi_record_loop p b m offset fid).map (fun f => f.fragment_id) =
        List.range' fid (encode_multi_record_loop p b m offset fid).length := by
    intro k
    induction k with
    | zero =>
        intro offset fid hk _
        rw [emr_loop_nil p b m offset fid (by omega)]
        rfl
    | succ n ih =>
        intro offset fid hk hfid
        by_cases h : offset < p.length
        · rw [emr_loop_cons p b m offset fid h]
          have hcs := emrChunkSize_pos fid p.length offset h
          have hmod : (fid + 1) % 4294967296 = fid + 1 :=
            Nat.mod_eq_of_lt (by omega)
          by_cases hbr : (fid + 1) % 4294967296 ≥ m
          · rw [if_pos hbr]
            simp [emrFrag, List.range'_succ]
          · rw [if_neg hbr]
            simp only [List.map_cons, List.length_cons, List.range'_succ]
            have h2 := ih (offset + emrChunkSize fid p.length offset)
              ((fid + 1) % 4294967296) (by omega) (by rw [hmod]; omega)
            rw [h2, hmod]
            simp [emrFrag]
        · rw [emr_loop_nil p b m offset fid h]
          rfl
  intro offset fid hfid
  exact H (p.length - offset) offset fid le_rfl hfid

theorem emrType_cases (fid : ℕ) :
    emrType fid = typeA ∨ emrType fid = typeAAAA ∨ emrType fid = typeTXT := by
  unfold emrType
  by_cases h0 : fid % 3 = 0
  · rw [if_pos h0]; exact Or.inl rfl
  · rw [if_neg h0]
    by_cases h1 : fid % 3 = 1
    · rw [if_pos h1]; exact Or.inr (Or.inl rfl)
    · rw [if_neg h1]; exact Or.inr (Or.inr rfl)

theorem emr_loop_shape (p b : List ℕ) (m : ℕ) :
    ∀ (offset fid : ℕ), fid < 4294967296 →
      ∀ f ∈ encode_multi_record_loop p b m offset fid,
        (f.record_type = typeA ∨ f.record_type = typeAAAA ∨
          f.record_type = typeTXT)
        ∧ f.fragment_id < 4294967296
        ∧ f.domain = generate_steganographic_subdomain f.fragment_id
            f.record_type ++ [dotByte] ++ b
        ∧ f.checksum = calculate_checksum f.encoded_data := by
  have H : ∀ (k offset fid : ℕ), p.length - offset ≤ k → fid < 4294967296 →
      ∀ f ∈ encode_multi_record_loop p b m offset fid,
        (f.record_type = typeA ∨ f.record_type = typeAAAA ∨
          f.record_type = typeTXT)
        ∧ f.fragment_id < 4294967296
        ∧ f.domain = generate_steganographic_subdomain f.fragment_id
            f.record_type ++ [dotByte] ++ b
        ∧ f.checksum = calculate_checksum f.encoded_data := by
    intro k
    induction k with
    | zero =>
        intro offset fid hk _ f hf
        rw [emr_loop_nil p b m offset fid (by omega)] at hf
        cases hf
    | succ n ih =>
        intro offset fid hk hfid f hf
        have hhead : f = emrFrag p b offset fid →
            (f.record_type = typeA ∨ f.record_type = typeAAAA ∨
              f.record_type = typeTXT)
            ∧ f.fragment_id < 4294967296
            ∧ f.domain = generate_steganographic_subdomain f.fragment_id
                f.record_type ++ [dotByte] ++ b
            ∧ f.checksum = calculate_checksum f.encoded_data := by
          intro hfe
          subst hfe
          refine ⟨emrType_cases fid, hfid, rfl, rfl⟩
        by_cases h : offset < p.length
        · rw [emr_loop_cons p b m offset fid h] at hf
          have hcs := emrChunkSize_pos fid p.length offset h
          by_cases hbr : (fid + 1) % 4294967296 ≥ m
          · rw [if_pos hbr] at hf
            exact hhead (List.mem_singleton.mp hf)
          · rw [if_neg hbr] at hf
            rcases List.mem_cons.mp hf with hf | hf
            · exact hhead hf
            · exact ih (offset + emrChunkSize fid p.length offset)
                ((fid + 1) % 4294967296) (by omega)
                (Nat.mod_lt _ (by norm_num)) f hf
        · rw [emr_loop_nil p b m offset fid h] at hf
          cases hf
  intro offset fid hfid f hf
  exact H (p.length - offset) offset fid le_rfl hfid f hf

/-- C8: `encode_distributed` returns exactly the `encode_multi_record`
fragment list re-ordered by a stable sort on record type: the result is a
permutation (no fragment added, removed, or modified), it is grouped
(sorted) by record type, and every same-type subsequence keeps its original
relative order. -/
theorem c8_distributed_refinement :
    ∀ (cfg : EncodingConfig) (gN gS : ℕ → ℕ) (payload base_domain : List ℕ)
      (l m : List EncodedFragment),
      encode_distributed cfg gN gS payload base_domain = Except.ok l →
      encode_multi_record cfg gN gS payload base_domain = Except.ok m →
      List.Perm l m
      ∧ l.Pairwise (fun a b => a.record_type ≤ b.record_type)
      ∧ (∀ t, l.filter (fun f => f.record_type = t) =
          m.filter (fun f => f.record_type = t)) := by
  intro cfg gN gS payload base_domain l m hl hm
  unfold encode_distributed at hl
  rw [hm] at hl
  have hl2 : keySort (fun f => f.record_type) m = l := by
    cases hl
    rfl
  subst hl2
  exact ⟨keySort_perm _ m, keySort_pairwise _ m,
    fun t => keySort_filter_key _ m t⟩

/-- C8 witness: the one-fragment instance (payload `[1]`, base `"d"`). -/
theorem c8_witness :
    List.Perm [{ emrFrag [1] [100] 0 0 with total_fragments := 1 }]
        [{ emrFrag [1] [100] 0 0 with total_fragments := 1 }]
      ∧ List.Pairwise (fun a b => a.record_type ≤ b.record_type)
          [{ emrFrag [1] [100] 0 0 with total_fragments := 1 }]
      ∧ (∀ t, List.filter (fun f => f.record_type = t)
            [{ emrFrag [1] [100] 0 0 with total_fragments := 1 }] =
          List.filter (fun f => f.record_type = t)
            [{ emrFrag [1] [100] 0 0 with total_fragments := 1 }]) :=
  c8_distributed_refinement
    (mkConfig EncodingStrategy.DISTRIBUTED 10 false false 0)
    (fun _ => 0) (fun _ => 0) [1] [100]
    [{ emrFrag [1] [100] 0 0 with total_fragments := 1 }]
    [{ emrFrag [1] [100] 0 0 with total_fragments := 1 }]
    (by simp [encode_distributed, encode_multi_record, mkConfig,
      encode_multi_record_loop, emrChunkSize, emrCap, u32, keySort, keyInsert])
    (by simp [encode_multi_record, mkConfig, encode_multi_record_loop,
      emrChunkSize, emrCap, u32])

theorem b64encode_length_le (p : List ℕ) :
    (b64encode p).length ≤ 4 * p.length := by
  induction p using b64encode.induct with
  | case1 => simp [b64encode]
  | case2 a => simp [b64encode]
  | case3 a a2 => simp [b64encode]
  | case4 a a2 a3 rest ih =>
      rw [b64encode]
      simp only [List.length_cons]
      simp only [List.length_cons] at ih ⊢
      omega

theorem splitChunks_length_le (l : List ℕ) :
    (splitChunks l).length ≤ l.length := by
  induction l using splitChunks.induct with
  | case1 => rw [splitChunks]; simp
  | case2 l h1 h2 =>
      rw [splitChunks, if_neg h1, dif_pos h2]
      have hpos : 1 ≤ l.length := by
        cases l with
        | nil => exact absurd rfl h1
        | cons a t => simp
      simpa using hpos
  | case3 l h1 h2 ih =>
      rw [splitChunks, if_neg h1, dif_neg h2]
      simp only [List.length_cons]
      rw [List.length_drop] at ih
      omega

theorem txt_fragments_count_le (p : List ℕ) :
    (encode_to_txt_fragments p).length ≤ 4 * p.length := by
  unfold encode_to_txt_fragments
  rw [List.length_map, List.length_range]
  exact le_trans (splitChunks_length_le _) (b64encode_length_le p)

theorem randomize_fragment_order_perm (g : ℕ → ℕ)
    (l : List EncodedFragment) :
    List.Perm (randomize_fragment_order g l) l :=
  shuffleGo_perm g (l.length - 1) l

theorem ids_perm_transfer (q : EncodedFragment → Bool)
    (g : EncodedFragment → ℕ) (l l' : List EncodedFragment)
    (h : List.Perm l' l)
    (hl : List.Perm ((l.filter q).map g) (List.range (l.filter q).length)) :
    List.Perm ((l'.filter q).map g) (List.range (l'.filter q).length) := by
  have h2 := (h.filter q).map g
  have h3 : (l'.filter q).length = (l.filter q).length := (h.filter q).length_eq
  rw [h3]
  exact h2.trans hl

/-- The real fragments of an `encode_multi_record` result carry ids forming
exactly `{0..N-1}`. -/
theorem multi_result_ids (cfg : EncodingConfig) (gN gS : ℕ → ℕ)
    (p b : List ℕ) (l : List EncodedFragment)
    (h : encode_multi_record cfg gN gS p b = Except.ok l)
    (hp : p.length < 4294967295) :
    List.Perm ((l.filter (fun f => f.fragment_id ≠ sentinelId)).map
        (fun f => f.fragment_id))
      (List.range (l.filter (fun f => f.fragment_id ≠ sentinelId)).length) := by
  unfold encode_multi_record at h
  simp only [] at h
  set raw := encode_multi_record_loop p b cfg.max_fragments 0 0 with hraw
  set frags := raw.map (fun f => { f with total_fragments := u32 raw.length })
    with hfrags
  have hids : frags.map (fun f => f.fragment_id) =
      List.range' 0 raw.length := by
    rw [hfrags, List.map_map]
    have h1 := emr_loop_ids p b cfg.max_fragments 0 0 (by omega)
    rw [← hraw] at h1
    exact h1
  have hlen : frags.length = raw.length := by rw [hfrags, List.length_map]
  have hcnt : raw.length ≤ p.length := by
    have := emr_loop_length_le p b cfg.max_fragments 0 0
    rw [← hraw] at this
    omega
  have hreal : ∀ f ∈ frags, f.fragment_id ≠ sentinelId := by
    intro f hf
    have hmem : f.fragment_id ∈ frags.map (fun f => f.fragment_id) :=
      List.mem_map_of_mem _ hf
    rw [hids] at hmem
    have := (List.mem_range'_1.mp hmem).2
    unfold sentinelId
    omega
  have hfilter : frags.filter (fun f => f.fragment_id ≠ sentinelId) = frags :=
    List.filter_eq_self.mpr (fun f hf => decide_eq_true (hreal f hf))
  have hbase : List.Perm
      ((frags.filter (fun f => f.fragment_id ≠ sentinelId)).map
        (fun f => f.fragment_id))
      (List.range (frags.filter (fun f => f.fragment_id ≠ sentinelId)).length) := by
    rw [hfilter, hids, hlen, List.range_eq_range']
  -- noise (all sentinel ids) is dropped by the filter
  have hnoise : ∀ nr : ℚ, List.Perm
      (((add_noise_fragments gN frags b nr).filter
        (fun f => f.fragment_id ≠ sentinelId)).map (fun f => f.fragment_id))
      (List.range ((add_noise_fragments gN frags b nr).filter
        (fun f => f.fragment_id ≠ sentinelId)).length) := by
    intro nr
    unfold add_noise_fragments
    rw [List.filter_append]
    have hzero : (((List.range (((frags.length : ℚ) * nr).floor.toNat)).map
        (fun i => ({ record_type := 1 + gN (33 * i) % 16
                     domain := strBytes "noise" ++ toDecBytes i ++ [dotByte] ++ b
                     encoded_data := (List.range 32).map
                       (fun j => gN (33 * i + 1 + j) % 256)
                     fragment_id := sentinelId
                     total_fragments := 0
                     checksum := [] } : EncodedFragment))).filter
          (fun f => f.fragment_id ≠ sentinelId)) = [] := by
      rw [List.filter_eq_nil_iff]
      intro f hf
      rw [List.mem_map] at hf
      obtain ⟨i, _, hfi⟩ := hf
      subst hfi
      simp
    rw [hzero, List.append_nil]
    exact hbase
  -- shuffling is a permutation
  have hfinal : ∀ l2 : List EncodedFragment,
      List.Perm ((l2.filter (fun f => f.fragment_id ≠ sentinelId)).map
        (fun f => f.fragment_id))
        (List.range (l2.filter (fun f => f.fragment_id ≠ sentinelId)).length) →
      ∀ l3 : List EncodedFragment,
      List.Perm l3 l2 →
      List.Perm ((l3.filter (fun f => f.fragment_id ≠ sentinelId)).map
        (fun f => f.fragment_id))
        (List.range (l3.filter (fun f => f.fragment_id ≠ sentinelId)).length) := by
    intro l2 h2 l3 h3
    exact ids_perm_transfer _ _ l2 l3 h3 h2
  by_cases hr : cfg.randomize_order = true
  · rw [if_pos hr] at h
    simp only [Except.ok.injEq] at h
    subst h
    by_cases hn : cfg.noise_ratio > 0
    · rw [if_pos hn]
      exact hfinal _ (hnoise cfg.noise_ratio) _
        (randomize_fragment_order_perm gS _)
    · rw [if_neg hn]
      exact hfinal _ hbase _ (randomize_fragment_order_perm gS _)
  · rw [if_neg hr] at h
    simp only [Except.ok.injEq] at h
    subst h
    by_cases hn : cfg.noise_ratio > 0
    · rw [if_pos hn]
      exact hnoise cfg.noise_ratio
    · rw [if_neg hn]
      exact hbase

/-- If a body function tags index `i` with fragment id `i`, mapping it over
`range n` and projecting ids yields `range n` itself (a permutation). -/
theorem map_proj_range_perm (n : ℕ) (body : ℕ → EncodedFragment)
    (hid : ∀ i < n, (body i).fragment_id = i) :
    List.Perm (((List.range n).map body).map (fun f => f.fragment_id))
      (List.range n) := by
  rw [List.map_map]
  have h1 : ∀ i ∈ List.range n,
      ((fun f : EncodedFragment => f.fragment_id) ∘ body) i = i := by
    intro i hi
    exact hid i (List.mem_range.mp hi)
  rw [List.map_congr_left h1]
  have h2 : (List.range n).map (fun a => a) = List.range n := by
    simp
  rw [h2]

/-- `encode_txt_only` never emits a fragment with the sentinel (noise) id. -/
theorem txt_no_sentinel (p b : List ℕ) (l : List EncodedFragment)
    (h : encode_txt_only p b = Except.ok l) (hp : p.length < 1073741823) :
    ∀ f ∈ l, f.fragment_id ≠ sentinelId := by
  unfold encode_txt_only at h
  simp only [Except.ok.injEq] at h
  subst h
  have hcnt : (encode_to_txt_fragments p).length ≤ 4 * p.length :=
    txt_fragments_count_le p
  intro f hf
  rw [List.mem_map] at hf
  obtain ⟨i, hi, hfi⟩ := hf
  rw [List.mem_range] at hi
  subst hfi
  show u32 i ≠ sentinelId
  unfold u32 sentinelId
  rw [Nat.mod_eq_of_lt (by omega)]
  omega

/-- The fragments of an `encode_txt_only` result carry ids forming exactly
`{0..N-1}` (TxtOnly produces no noise fragments at all). -/
theorem txt_result_ids (p b : List ℕ) (l : List EncodedFragment)
    (h : encode_txt_only p b = Except.ok l) (hp : p.length < 1073741823) :
    List.Perm ((l.filter (fun f => f.fragment_id ≠ sentinelId)).map
        (fun f => f.fragment_id))
      (List.range (l.filter (fun f => f.fragment_id ≠ sentinelId)).length) := by
  unfold encode_txt_only at h
  simp only [Except.ok.injEq] at h
  subst h
  have hcnt : (encode_to_txt_fragments p).length ≤ 4 * p.length :=
    txt_fragments_count_le p
  have hid : ∀ i < (encode_to_txt_fragments p).length, u32 i = i := by
    intro i hi
    unfold u32
    apply Nat.mod_eq_of_lt
    omega
  have hfilter : ∀ f ∈ (List.range (encode_to_txt_fragments p).length).map
      (fun i => ({ record_type := typeTXT
                   domain := generate_steganographic_subdomain (u32 i) typeTXT ++
                     [dotByte] ++ b
                   encoded_data := (encode_to_txt_fragments p).getD i []
                   fragment_id := u32 i
                   total_fragments := u32 (encode_to_txt_fragments p).length
                   checksum := calculate_checksum
                     ((encode_to_txt_fragments p).getD i []) } : EncodedFragment)),
      f.fragment_id ≠ sentinelId := by
    intro f hf
    rw [List.mem_map] at hf
    obtain ⟨i, hi, hfi⟩ := hf
    rw [List.mem_range] at hi
    subst hfi
    show u32 i ≠ sentinelId
    rw [hid i hi]
    unfold sentinelId
    omega
  rw [List.filter_eq_self.mpr (fun f hf => decide_eq_true (hfilter f hf))]
  rw [List.length_map, List.length_range]
  exact map_proj_range_perm (encode_to_txt_fragments p).length _ hid

/-- C6: among the fragments returned by `encode_payload`, the real
(non-sentinel) fragments carry ids forming exactly the contiguous set
`{0,…,N-1}` where `N` is the number of real fragments; noise fragments all
carry the sentinel id and are excluded; the invariant survives noise
injection, order randomization and the Distributed re-sort. -/
theorem c6_fragment_id_contiguity :
    ∀ (cfg : EncodingConfig) (gN gS : ℕ → ℕ) (payload base_domain : List ℕ)
      (frags : List EncodedFragment),
      encode_payload cfg gN gS payload base_domain = Except.ok frags →
      payload.length ≤ 268435456 →
      List.Perm
        ((frags.filter (fun f => f.fragment_id ≠ sentinelId)).map
          (fun f => f.fragment_id))
        (List.range
          (frags.filter (fun f => f.fragment_id ≠ sentinelId)).length) := by
  intro cfg gN gS payload base_domain frags h hlen
  unfold encode_payload at h
  by_cases hnil : payload = []
  · rw [if_pos hnil] at h
    cases h
  · rw [if_neg hnil] at h
    simp only [] at h
    have hplen : (if cfg.use_compression then compress_payload payload
        else payload).length ≤ payload.length + 2 := by
      by_cases hc : cfg.use_compression = true
      · rw [if_pos hc]
        simp [compress_payload]
      · rw [if_neg hc]
        omega
    set processed := if cfg.use_compression then compress_payload payload
      else payload with hproc
    cases hstrat : cfg.strategy with
    | TXT_ONLY =>
        rw [hstrat] at h
        exact txt_result_ids processed base_domain frags h (by omega)
    | MULTI_RECORD =>
        rw [hstrat] at h
        exact multi_result_ids cfg gN gS processed base_domain frags h (by omega)
    | DISTRIBUTED =>
        rw [hstrat] at h
        unfold encode_distributed at h
        cases hm : encode_multi_record cfg gN gS processed base_domain with
        | error e =>
            rw [hm] at h
            cases h
        | ok m =>
            rw [hm] at h
            simp only [Except.ok.injEq] at h
            subst h
            exact ids_perm_transfer _ _ m _ (keySort_perm _ m)
              (multi_result_ids cfg gN gS processed base_domain m hm (by omega))
    | HTTP2_BODY =>
        rw [hstrat] at h
        cases h

/-- C6 witness: the one-fragment MultiRecord instance. -/
theorem c6_witness :
    List.Perm
      ((([{ emrFrag [1] [100] 0 0 with total_fragments := 1 }].filter
          (fun f => f.fragment_id ≠ sentinelId)).map (fun f => f.fragment_id)))
      (List.range
        ([{ emrFrag [1] [100] 0 0 with total_fragments := 1 }].filter
          (fun f => f.fragment_id ≠ sentinelId)).length) :=
  c6_fragment_id_contiguity
    (mkConfig EncodingStrategy.MULTI_RECORD 10 false false 0)
    (fun _ => 0) (fun _ => 0) [1] [100]
    [{ emrFrag [1] [100] 0 0 with total_fragments := 1 }]
    (by simp [encode_payload, encode_multi_record, mkConfig,
      encode_multi_record_loop, emrChunkSize, emrCap, u32])
    (by decide)

/-- C5 (amended): decoy fragments are appended only by the MultiRecord
encoder (and hence by Distributed, which post-processes its output), never
by TxtOnly. For MultiRecord with `randomize_order = false` and
`noise_ratio > 0` the result is the real fragments followed by exactly
`⌊real_count · noise_ratio⌋` decoys, each with sentinel id `0xFFFFFFFF`,
record type `1 + rand % 16`, 32 pseudo-random data bytes, domain
`noise<i>.<base_domain>` and an empty checksum; a TxtOnly result, contrary
to the original claim, never contains a sentinel id. -/
theorem c5_noise_only_multi_record :
    ∀ (cfg : EncodingConfig) (gN gS : ℕ → ℕ) (payload base_domain : List ℕ)
      (l : List EncodedFragment),
      payload.length ≤ 268435456 →
      encode_payload cfg gN gS payload base_domain = Except.ok l →
      (cfg.strategy = EncodingStrategy.MULTI_RECORD →
        cfg.randomize_order = false →
        cfg.noise_ratio > 0 →
        ∃ real : List EncodedFragment,
          (∀ f ∈ real, f.fragment_id ≠ sentinelId) ∧
          l = real ++
            (List.range (((real.length : ℚ) * cfg.noise_ratio).floor.toNat)).map
              (fun i =>
                ({ record_type := 1 + gN (33 * i) % 16
                   domain := strBytes "noise" ++ toDecBytes i ++ [dotByte] ++
                     base_domain
                   encoded_data := (List.range 32).map
                     (fun j => gN (33 * i + 1 + j) % 256)
                   fragment_id := sentinelId
                   total_fragments := 0
                   checksum := [] } : EncodedFragment))) ∧
      (cfg.strategy = EncodingStrategy.TXT_ONLY →
        ∀ f ∈ l, f.fragment_id ≠ sentinelId) := by
  intro cfg gN gS payload base_domain l hlen h
  constructor
  · intro hstrat hr hn
    unfold encode_payload at h
    by_cases hnil : payload = []
    · rw [if_pos hnil] at h
      cases h
    · rw [if_neg hnil] at h
      simp only [] at h
      rw [hstrat] at h
      have h2 : encode_multi_record cfg gN gS
          (if cfg.use_compression then compress_payload payload else payload)
          base_domain = Except.ok l := h
      set processed := if cfg.use_compression then compress_payload payload
        else payload with hproc
      have hplen : processed.length < 4294967295 := by
        rw [hproc]
        by_cases hc : cfg.use_compression = true
        · rw [if_pos hc]
          have hcl : (compress_payload payload).length = payload.length + 2 := by
            simp [compress_payload]
          omega
        · rw [if_neg hc]
          omega
      unfold encode_multi_record at h2
      simp only [] at h2
      set raw := encode_multi_record_loop processed base_domain
        cfg.max_fragments 0 0 with hraw
      set frags := raw.map (fun f => { f with total_fragments := u32 raw.length })
        with hfrags
      have hrc : ¬ (cfg.randomize_order = true) := by
        rw [hr]
        simp
      rw [if_neg hrc, if_pos hn] at h2
      simp only [Except.ok.injEq] at h2
      subst h2
      refine ⟨frags, ?_, ?_⟩
      · have hids : frags.map (fun f => f.fragment_id) =
            List.range' 0 raw.length := by
          rw [hfrags, List.map_map]
          have h1 := emr_loop_ids processed base_domain cfg.max_fragments 0 0
            (by omega)
          rw [← hraw] at h1
          exact h1
        have hcnt : raw.length ≤ processed.length := by
          have h4 := emr_loop_length_le processed base_domain
            cfg.max_fragments 0 0
          rw [← hraw] at h4
          omega
        intro f hf
        have hmem : f.fragment_id ∈ frags.map (fun f => f.fragment_id) :=
          List.mem_map_of_mem _ hf
        rw [hids] at hmem
        have h3 := (List.mem_range'_1.mp hmem).2
        unfold sentinelId
        omega
      · rfl
  · intro hstrat
    unfold encode_payload at h
    by_cases hnil : payload = []
    · rw [if_pos hnil] at h
      cases h
    · rw [if_neg hnil] at h
      simp only [] at h
      rw [hstrat] at h
      have h2 : encode_txt_only
          (if cfg.use_compression then compress_payload payload else payload)
          base_domain = Except.ok l := h
      have hplen : (if cfg.use_compression then compress_payload payload
          else payload).length < 1073741823 := by
        by_cases hc : cfg.use_compression = true
        · rw [if_pos hc]
          have hcl : (compress_payload payload).length = payload.length + 2 := by
            simp [compress_payload]
          omega
        · rw [if_neg hc]
          omega
      exact txt_no_sentinel _ base_domain l h2 hplen

/-- C5 witness: MultiRecord on payload `[1]`, ratio 1, trivial generators. -/
theorem c5_witness :
    ∃ real : List EncodedFragment,
      (∀ f ∈ real, f.fragment_id ≠ sentinelId) ∧
      [{ emrFrag [1] [100] 0 0 with total_fragments := 1 },
       { record_type := 1 + (fun _ => 0 : ℕ → ℕ) 0 % 16
         domain := strBytes "noise" ++ toDecBytes 0 ++ [dotByte] ++ [100]
         encoded_data := (List.range 32).map
           (fun j => (fun _ => 0 : ℕ → ℕ) (1 + j) % 256)
         fragment_id := sentinelId
         total_fragments := 0
         checksum := [] }] = real ++
        (List.range (((real.length : ℚ) *
          (mkConfig EncodingStrategy.MULTI_RECORD 10 false false 1).noise_ratio).floor.toNat)).map
          (fun i =>
            ({ record_type := 1 + (fun _ => 0 : ℕ → ℕ) (33 * i) % 16
               domain := strBytes "noise" ++ toDecBytes i ++ [dotByte] ++ [100]
               encoded_data := (List.range 32).map
                 (fun j => (fun _ => 0 : ℕ → ℕ) (33 * i + 1 + j) % 256)
               fragment_id := sentinelId
               total_fragments := 0
               checksum := [] } : EncodedFragment)) :=
  (c5_noise_only_multi_record
    (mkConfig EncodingStrategy.MULTI_RECORD 10 false false 1)
    (fun _ => 0) (fun _ => 0) [1] [100]
    [{ emrFrag [1] [100] 0 0 with total_fragments := 1 },
     { record_type := 1 + (fun _ => 0 : ℕ → ℕ) 0 % 16
       domain := strBytes "noise" ++ toDecBytes 0 ++ [dotByte] ++ [100]
       encoded_data := (List.range 32).map
         (fun j => (fun _ => 0 : ℕ → ℕ) (1 + j) % 256)
       fragment_id := sentinelId
       total_fragments := 0
       checksum := [] }]
    (by decide)
    (by
      have hc : (Rat.floor (1:ℚ)).toNat = 1 := by
        norm_num [Rat.floor]
      simp [encode_payload, encode_multi_record, mkConfig,
        encode_multi_record_loop, emrChunkSize, emrCap, u32,
        add_noise_fragments, hc, List.range_succ])).1
    rfl rfl (by norm_num [mkConfig])

theorem splitDomainGo_no_dot :
    ∀ (a rest cur : List ℕ), dotByte ∉ a →
      splitDomainGo (a ++ rest) cur = splitDomainGo rest (cur ++ a) := by
  intro a
  induction a with
  | nil =>
      intro rest cur _
      simp
  | cons c t ih =>
      intro rest cur h
      simp only [List.mem_cons, not_or] at h
      obtain ⟨hc, ht⟩ := h
      rw [List.cons_append]
      simp only [splitDomainGo]
      rw [if_neg (fun hq => hc hq.symm)]
      rw [ih rest (cur ++ [c]) ht]
      simp

theorem splitDomain_cons (a rest : List ℕ) (hnd : dotByte ∉ a)
    (hne : a ≠ []) :
    splitDomain (a ++ [dotByte] ++ rest) = a :: splitDomain rest := by
  unfold splitDomain
  rw [List.append_assoc, splitDomainGo_no_dot a ([dotByte] ++ rest) [] hnd]
  simp only [List.nil_append, List.singleton_append]
  simp only [splitDomainGo]
  rw [if_pos trivial, if_neg hne]

theorem toHexBytes_length_le :
    ∀ (k n : ℕ), n < 16 ^ (k + 1) → (toHexBytes n).length ≤ k + 1 := by
  intro k
  induction k with
  | zero =>
      intro n hn
      have h16 : n < 16 := by
        have : (16:ℕ) ^ 1 = 16 := by norm_num
        omega
      rw [toHexBytes, dif_pos h16]
      simp
  | succ m ih =>
      intro n hn
      by_cases h : n < 16
      · rw [toHexBytes, dif_pos h]
        simp
      · rw [toHexBytes, dif_neg h]
        rw [List.length_append]
        have hd : n / 16 < 16 ^ (m + 1) := by
          rw [Nat.div_lt_iff_lt_mul (by norm_num)]
          have : (16:ℕ) ^ (m + 2) = 16 ^ (m + 1) * 16 := by ring
          omega
        have hih := ih (n / 16) hd
        simp only [List.length_singleton]
        omega

theorem toDecBytes_length_le :
    ∀ (k n : ℕ), n < 10 ^ (k + 1) → (toDecBytes n).length ≤ k + 1 := by
  intro k
  induction k with
  | zero =>
      intro n hn
      have h10 : n < 10 := by
        have : (10:ℕ) ^ 1 = 10 := by norm_num
        omega
      rw [toDecBytes, dif_pos h10]
      simp
  | succ m ih =>
      intro n hn
      by_cases h : n < 10
      · rw [toDecBytes, dif_pos h]
        simp
      · rw [toDecBytes, dif_neg h]
        rw [List.length_append]
        have hd : n / 10 < 10 ^ (m + 1) := by
          rw [Nat.div_lt_iff_lt_mul (by norm_num)]
          have : (10:ℕ) ^ (m + 2) = 10 ^ (m + 1) * 10 := by ring
          omega
        have hih := ih (n / 10) hd
        simp only [List.length_singleton]
        omega

/-- The noise count `floor(n · r)` never exceeds `n` when `r ≤ 1`. -/
theorem noise_count_le (n : ℕ) (r : ℚ) (hr : r ≤ 1) :
    ((n : ℚ) * r).floor.toNat ≤ n := by
  have h1 : (n : ℚ) * r ≤ (n : ℚ) := by
    calc (n : ℚ) * r ≤ (n : ℚ) * 1 :=
          mul_le_mul_of_nonneg_left hr (by positivity)
      _ = (n : ℚ) := mul_one _
  have h2 : Rat.floor ((n : ℚ) * r) ≤ (n : ℤ) := by
    by_contra hcon
    push_neg at hcon
    have h3 : ((n : ℤ) + 1 : ℤ) ≤ Rat.floor ((n : ℚ) * r) := hcon
    have h4 := Rat.le_floor.mp h3
    push_cast at h4
    linarith
  omega

/-- Every subdomain is a fixed dot-free prefix followed by the hex id. -/
theorem gss_shape (fid t : ℕ) : ∃ p : List ℕ,
    generate_steganographic_subdomain fid t = p ++ toHexBytes fid ∧
      dotByte ∉ p ∧ p ≠ [] ∧ p.length ≤ 5 := by
  unfold generate_steganographic_subdomain
  by_cases h1 : t = typeA
  · rw [if_pos h1]
    exact ⟨strBytes "www", rfl, by decide, by decide, by decide⟩
  · rw [if_neg h1]
    by_cases h2 : t = typeAAAA
    · rw [if_pos h2]
      exact ⟨strBytes "ipv6-", rfl, by decide, by decide, by decide⟩
    · rw [if_neg h2]
      by_cases h3 : t = typeTXT
      · rw [if_pos h3]
        exact ⟨strBytes "mail", rfl, by decide, by decide, by decide⟩
      · rw [if_neg h3]
        exact ⟨strBytes "srv", rfl, by decide, by decide, by decide⟩

theorem gss_props (fid t : ℕ) (hf : fid < 4294967296) :
    dotByte ∉ generate_steganographic_subdomain fid t ∧
      generate_steganographic_subdomain fid t ≠ [] ∧
      (generate_steganographic_subdomain fid t).length ≤ 13 := by
  obtain ⟨p, hp, hnd, hne, hlen⟩ := gss_shape fid t
  rw [hp]
  refine ⟨?_, ?_, ?_⟩
  · intro hm
    rcases List.mem_append.mp hm with hm | hm
    · exact hnd hm
    · have := toHexBytes_range fid dotByte hm
      unfold dotByte at this
      omega
  · intro hq
    rw [List.append_eq_nil] at hq
    exact hne hq.1
  · rw [List.length_append]
    have h8 : (toHexBytes fid).length ≤ 8 := by
      apply toHexBytes_length_le 7 fid
      have : (16:ℕ) ^ 8 = 4294967296 := by norm_num
      omega
    omega

theorem noise_label_props (i : ℕ) (hi : i < 1000000000) :
    dotByte ∉ strBytes "noise" ++ toDecBytes i ∧
      strBytes "noise" ++ toDecBytes i ≠ [] ∧
      (strBytes "noise" ++ toDecBytes i).length ≤ 14 := by
  refine ⟨?_, ?_, ?_⟩
  · intro hm
    rcases List.mem_append.mp hm with hm | hm
    · revert hm
      decide
    · have := toDecBytes_range i dotByte hm
      unfold dotByte at this
      omega
  · intro hq
    rw [List.append_eq_nil] at hq
    exact absurd hq.1 (by decide)
  · rw [List.length_append]
    have h9 : (toDecBytes i).length ≤ 9 := by
      apply toDecBytes_length_le 8 i
      have : (10:ℕ) ^ 9 = 1000000000 := by norm_num
      omega
    have h5 : (strBytes "noise").length = 5 := by decide
    omega

/-- A dot-free nonempty label of ≤14 bytes glued with a dot onto a valid
base yields a domain within the DNS limits. -/
theorem domain_ok (lab base : List ℕ) (hnd : dotByte ∉ lab) (hne : lab ≠ [])
    (hl : lab.length ≤ 14) (hb : base.length ≤ 238)
    (hlab : ∀ x ∈ splitDomain base, x.length ≤ 63) :
    (lab ++ [dotByte] ++ base).length ≤ 253 ∧
      ∀ x ∈ splitDomain (lab ++ [dotByte] ++ base), x.length ≤ 63 := by
  constructor
  · simp only [List.length_append, List.length_singleton]
    omega
  · rw [splitDomain_cons lab base hnd hne]
    intro x hx
    rcases List.mem_cons.mp hx with rfl | hx
    · omega
    · exact hlab x hx

theorem txt_domains_ok (p b : List ℕ) (l : List EncodedFragment)
    (h : encode_txt_only p b = Except.ok l)
    (hb : b.length ≤ 238) (hlab : ∀ x ∈ splitDomain b, x.length ≤ 63) :
    ∀ f ∈ l, f.domain.length ≤ 253 ∧
      ∀ x ∈ splitDomain f.domain, x.length ≤ 63 := by
  unfold encode_txt_only at h
  simp only [Except.ok.injEq] at h
  subst h
  intro f hf
  rw [List.mem_map] at hf
  obtain ⟨i, hi, hfi⟩ := hf
  subst hfi
  obtain ⟨hnd, hne, hlen⟩ := gss_props (u32 i) typeTXT (by unfold u32; omega)
  exact domain_ok _ b hnd hne (by omega) hb hlab

theorem multi_domains_ok (cfg : EncodingConfig) (gN gS : ℕ → ℕ)
    (p b : List ℕ) (l : List EncodedFragment)
    (h : encode_multi_record cfg gN gS p b = Except.ok l)
    (hp : p.length ≤ 268435458) (hr : cfg.noise_ratio ≤ 1)
    (hb : b.length ≤ 238) (hlab : ∀ x ∈ splitDomain b, x.length ≤ 63) :
    ∀ f ∈ l, f.domain.length ≤ 253 ∧
      ∀ x ∈ splitDomain f.domain, x.length ≤ 63 := by
  unfold encode_multi_record at h
  simp only [] at h
  set raw := encode_multi_record_loop p b cfg.max_fragments 0 0 with hraw
  set frags := raw.map (fun f => { f with total_fragments := u32 raw.length })
    with hfrags
  have hfragsOK : ∀ f ∈ frags, f.domain.length ≤ 253 ∧
      ∀ x ∈ splitDomain f.domain, x.length ≤ 63 := by
    intro f hf
    rw [hfrags, List.mem_map] at hf
    obtain ⟨f0, hf0, hff⟩ := hf
    rw [hraw] at hf0
    obtain ⟨htype, hid, hdom, _⟩ :=
      emr_loop_shape p b cfg.max_fragments 0 0 (by norm_num) f0 hf0
    subst hff
    obtain ⟨hnd, hne, hlen⟩ := gss_props f0.fragment_id f0.record_type hid
    have hdomeq : ({ f0 with total_fragments := u32 raw.length } :
        EncodedFragment).domain = f0.domain := rfl
    rw [hdomeq, hdom]
    exact domain_ok _ b hnd hne (by omega) hb hlab
  have hnoiseOK : ∀ nr : ℚ, nr ≤ 1 → ∀ f ∈ add_noise_fragments gN frags b nr,
      f.domain.length ≤ 253 ∧ ∀ x ∈ splitDomain f.domain, x.length ≤ 63 := by
    intro nr hnr f hf
    unfold add_noise_fragments at hf
    rcases List.mem_append.mp hf with hf | hf
    · exact hfragsOK f hf
    · rw [List.mem_map] at hf
      obtain ⟨i, hi, hfi⟩ := hf
      rw [List.mem_range] at hi
      subst hfi
      have hcount : ((frags.length : ℚ) * nr).floor.toNat ≤ frags.length :=
        noise_count_le frags.length nr hnr
      have hflen : frags.length = raw.length := by
        rw [hfrags, List.length_map]
      have hrawlen : raw.length ≤ p.length := by
        have h4 := emr_loop_length_le p b cfg.max_fragments 0 0
        rw [← hraw] at h4
        omega
      obtain ⟨hnd, hne, hlen⟩ := noise_label_props i (by omega)
      exact domain_ok (strBytes "noise" ++ toDecBytes i) b hnd hne
        (by omega) hb hlab
  by_cases hrand : cfg.randomize_order = true
  · rw [if_pos hrand] at h
    simp only [Except.ok.injEq] at h
    subst h
    intro f hf
    have hperm := randomize_fragment_order_perm gS
      (if cfg.noise_ratio > 0 then add_noise_fragments gN frags b cfg.noise_ratio
        else frags)
    have hf2 := hperm.mem_iff.mp hf
    by_cases hn : cfg.noise_ratio > 0
    · rw [if_pos hn] at hf2
      exact hnoiseOK cfg.noise_ratio hr f hf2
    · rw [if_neg hn] at hf2
      exact hfragsOK f hf2
  · rw [if_neg hrand] at h
    simp only [Except.ok.injEq] at h
    subst h
    intro f hf
    by_cases hn : cfg.noise_ratio > 0
    · rw [if_pos hn] at hf
      exact hnoiseOK cfg.noise_ratio hr f hf
    · rw [if_neg hn] at hf
      exact hfragsOK f hf

/-- C7 (amended): the unconditional claim is false (the encoder never
validates the base domain), but under the natural preconditions — base
domain at most 238 bytes with every label at most 63 bytes, payload at most
`2^28` bytes, `noise_ratio ≤ 1` — every fragment's domain has total length
at most 253 bytes and every dot-separated label at most 63 bytes, for every
strategy. -/
theorem c7_domain_limits :
    ∀ (cfg : EncodingConfig) (gN gS : ℕ → ℕ) (payload base_domain : List ℕ)
      (l : List EncodedFragment),
      encode_payload cfg gN gS payload base_domain = Except.ok l →
      payload.length ≤ 268435456 →
      cfg.noise_ratio ≤ 1 →
      base_domain.length ≤ 238 →
      (∀ lab ∈ splitDomain base_domain, lab.length ≤ 63) →
      ∀ f ∈ l, f.domain.length ≤ 253 ∧
        ∀ lab ∈ splitDomain f.domain, lab.length ≤ 63 := by
  intro cfg gN gS payload base_domain l h hpl hr hb hlab
  unfold encode_payload at h
  by_cases hnil : payload = []
  · rw [if_pos hnil] at h
    cases h
  · rw [if_neg hnil] at h
    simp only [] at h
    have hplen : (if cfg.use_compression then compress_payload payload
        else payload).length ≤ 268435458 := by
      by_cases hc : cfg.use_compression = true
      · rw [if_pos hc]
        have hcl : (compress_payload payload).length = payload.length + 2 := by
          simp [compress_payload]
        omega
      · rw [if_neg hc]
        omega
    set processed := if cfg.use_compression then compress_payload payload
      else payload with hproc
    cases hstrat : cfg.strategy with
    | TXT_ONLY =>
        rw [hstrat] at h
        exact txt_domains_ok processed base_domain l h hb hlab
    | MULTI_RECORD =>
        rw [hstrat] at h
        exact multi_domains_ok cfg gN gS processed base_domain l h hplen hr
          hb hlab
    | DISTRIBUTED =>
        rw [hstrat] at h
        unfold encode_distributed at h
        cases hm : encode_multi_record cfg gN gS processed base_domain with
        | error e =>
            rw [hm] at h
            cases h
        | ok m =>
            rw [hm] at h
            simp only [Except.ok.injEq] at h
            subst h
            intro f hf
            have hperm := keySort_perm
              (fun f : EncodedFragment => f.record_type) m
            exact multi_domains_ok cfg gN gS processed base_domain m hm hplen
              hr hb hlab f (hperm.mem_iff.mp hf)
    | HTTP2_BODY =>
        rw [hstrat] at h
        cases h

/-- C7 witness: TxtOnly on payload `[1]` over the one-byte base `"a"`. -/
theorem c7_witness :
    (generate_steganographic_subdomain 0 typeTXT ++
        [dotByte] ++ [97]).length ≤ 253 ∧
      ∀ lab ∈ splitDomain (generate_steganographic_subdomain 0 typeTXT ++
        [dotByte] ++ [97]), lab.length ≤ 63 :=
  c7_domain_limits
    (mkConfig EncodingStrategy.TXT_ONLY 10 false false 0)
    (fun _ => 0) (fun _ => 0) [1] [97]
    [{ record_type := typeTXT
       domain := generate_steganographic_subdomain 0 typeTXT ++
         [dotByte] ++ [97]
       encoded_data := create_steganographic_txt [65, 81, 61, 61] 0
       fragment_id := 0
       total_fragments := 1
       checksum := calculate_checksum
         (create_steganographic_txt [65, 81, 61, 61] 0) }]
    (by
      have hb1 : b64encode [1] = [65, 81, 61, 61] := by decide
      have hs : splitChunks [65, 81, 61, 61] = [[65, 81, 61, 61]] := by
        rw [splitChunks]
        simp [padTo4]
      have ht : encode_to_txt_fragments [1] =
          [create_steganographic_txt [65, 81, 61, 61] 0] := by
        simp [encode_to_txt_fragments, hb1, hs, u32, List.range_succ]
      simp only [encode_payload, encode_txt_only, mkConfig]
      norm_num
      rw [ht]
      simp [u32, List.range_succ])
    (by decide) (by decide) (by decide) (by decide)
    { record_type := typeTXT
      domain := generate_steganographic_subdomain 0 typeTXT ++
        [dotByte] ++ [97]
      encoded_data := create_steganographic_txt [65, 81, 61, 61] 0
      fragment_id := 0
      total_fragments := 1
      checksum := calculate_checksum
        (create_steganographic_txt [65, 81, 61, 61] 0) }
    (List.mem_singleton.mpr rfl)

theorem verify_checksum_self (d : List ℕ) :
    verify_checksum d (calculate_checksum d) = true := by
  simp [verify_checksum]

theorem keySort_eq_of_sorted {α : Type} (key : α → ℕ) :
    ∀ (l : List α), l.Pairwise (fun x y => key x ≤ key y) →
      keySort key l = l := by
  intro l
  induction l with
  | nil =>
      intro _
      rfl
  | cons a t ih =>
      intro h
      rcases List.pairwise_cons.mp h with ⟨ha, ht⟩
      rw [keySort, ih ht]
      cases t with
      | nil => rfl
      | cons b t2 =>
          rw [keyInsert, if_pos (ha b (List.mem_cons_self b t2))]

theorem take_append_le {α : Type} (x r : List α) (n : ℕ) (h : n ≤ x.length) :
    (x ++ r).take n = x.take n := by
  rw [List.take_append_eq_append_take, Nat.sub_eq_zero_of_le h]
  simp

theorem findSubGo_ge (pat : List ℕ) :
    ∀ (l : List ℕ) (i j : ℕ), findSubGo pat l i = some j → i ≤ j := by
  intro l
  induction l with
  | nil =>
      intro i j h
      rw [findSubGo] at h
      by_cases hc : ([] : List ℕ).take pat.length = pat
      · rw [if_pos hc] at h
        cases h
        omega
      · rw [if_neg hc] at h
        cases h
  | cons a t ih =>
      intro i j h
      rw [findSubGo] at h
      by_cases hc : (a :: t).take pat.length = pat
      · rw [if_pos hc] at h
        cases h
        omega
      · rw [if_neg hc] at h
        have := ih (i + 1) j h
        omega

theorem findSubGo_extend (pat : List ℕ) (hp : pat ≠ []) :
    ∀ (hdr : List ℕ) (i j : ℕ), findSubGo pat hdr i = some j →
      j + pat.length ≤ i + hdr.length →
      ∀ r, findSubGo pat (hdr ++ r) i = some j := by
  intro hdr
  induction hdr with
  | nil =>
      intro i j h _ r
      rw [findSubGo] at h
      rw [if_neg (by
        simp only [List.take_nil]
        exact fun hq => hp hq.symm)] at h
      cases h
  | cons a t ih =>
      intro i j h hb r
      rw [findSubGo] at h
      rw [List.cons_append, findSubGo]
      by_cases hc : (a :: t).take pat.length = pat
      · rw [if_pos hc] at h
        cases h
        have hlen : pat.length ≤ (a :: t).length := by
          simp only [List.length_cons] at hb ⊢
          omega
        rw [show (a :: (t ++ r)) = (a :: t) ++ r from rfl] at *
        rw [take_append_le (a :: t) r pat.length hlen, if_pos hc]
      · rw [if_neg hc] at h
        have hj := findSubGo_ge pat t (i + 1) j h
        have hlen : pat.length ≤ t.length := by
          simp only [List.length_cons] at hb
          omega
        have hwin : (a :: (t ++ r)).take pat.length =
            (a :: t).take pat.length := by
          rw [show (a :: (t ++ r)) = (a :: t) ++ r from rfl]
          exact take_append_le (a :: t) r pat.length
            (by simp only [List.length_cons]; omega)
        rw [hwin, if_neg hc]
        apply ih (i + 1) j h
        simp only [List.length_cons] at hb
        omega

theorem findByteGo_skip (c : ℕ) :
    ∀ (a rest : List ℕ) (i : ℕ), (∀ x ∈ a, x ≠ c) →
      findByteGo c (a ++ c :: rest) i = some (i + a.length) := by
  intro a
  induction a with
  | nil =>
      intro rest i _
      simp [findByteGo]
  | cons x t ih =>
      intro rest i h
      rw [List.cons_append, findByteGo]
      rw [if_neg (h x (List.mem_cons_self x t))]
      rw [ih rest (i + 1) (fun y hy => h y (List.mem_cons_of_mem x hy))]
      simp only [List.length_cons]
      congr 1
      omega

/-- Decoding a single well-formed steganographic TXT record recovers the
Base64 text exactly: the `"frag="` marker is found at index 37 inside the
SPF header, and the first `'='` after it is the separator that precedes the
chunk (the hex id contains no `'='`). -/
theorem decode_txt_single (chunk : List ℕ) (fid : ℕ) :
    decode_from_txt_fragments [create_steganographic_txt chunk fid] =
      b64decode chunk := by
  have hsp : spfHeader.length = 42 := by decide
  have htxt : create_steganographic_txt chunk fid =
      spfHeader ++ (toHexBytes fid ++ (padByte :: chunk)) := by
    unfold create_steganographic_txt
    simp [List.append_assoc]
  have hfind : findSub (create_steganographic_txt chunk fid) fragPat =
      some 37 := by
    rw [htxt]
    exact findSubGo_extend fragPat (by decide) spfHeader 0 37 (by decide)
      (by decide) _
  have hx61 : ∀ x ∈ toHexBytes fid, x ≠ padByte := by
    intro x hx
    have := toHexBytes_range fid x hx
    unfold padByte
    omega
  have hbyte : findByteFrom padByte (create_steganographic_txt chunk fid)
      (37 + 5) = some (42 + (toHexBytes fid).length) := by
    unfold findByteFrom
    have hdrop42 : (create_steganographic_txt chunk fid).drop (37 + 5) =
        toHexBytes fid ++ (padByte :: chunk) := by
      rw [htxt]
      exact List.drop_left' hsp
    rw [hdrop42]
    have := findByteGo_skip padByte (toHexBytes fid) chunk (37 + 5) hx61
    rw [this]
  have hdropAll : (create_steganographic_txt chunk fid).drop
      (42 + (toHexBytes fid).length + 1) = chunk := by
    unfold create_steganographic_txt
    apply List.drop_left'
    simp only [List.length_append, List.length_singleton, hsp]
  unfold decode_from_txt_fragments
  simp only [List.foldl_cons, List.foldl_nil]
  rw [hfind]
  simp only []
  rw [hbyte]
  simp only []
  rw [hdropAll]
  simp

theorem optMapM_map_comp {α β γ : Type} (g : α → β) (f : β → Option γ) :
    ∀ (l : List α), optMapM f (l.map g) = optMapM (fun a => f (g a)) l := by
  intro l
  induction l with
  | nil => rfl
  | cons a t ih =>
      simp only [List.map_cons, optMapM, ih]

theorem optMapM_congr_fn {α β : Type} (f f2 : α → Option β) :
    ∀ (l : List α), (∀ a ∈ l, f a = f2 a) → optMapM f l = optMapM f2 l := by
  intro l
  induction l with
  | nil =>
      intro _
      rfl
  | cons a t ih =>
      intro h
      simp only [optMapM]
      rw [h a (List.mem_cons_self a t),
        ih (fun x hx => h x (List.mem_cons_of_mem a hx))]

theorem optMapM_range_getD {α β : Type} (f : α → Option β) (dflt : α) :
    ∀ (cs : List α),
      optMapM (fun i => f (cs.getD i dflt)) (List.range cs.length) =
        optMapM f cs := by
  intro cs
  induction cs with
  | nil => rfl
  | cons c t ih =>
      have he : ∀ i ∈ List.range t.length,
          f ((c :: t).getD (i + 1) dflt) = f (t.getD i dflt) := by
        intro i _
        rfl
      simp only [List.length_cons, List.range_succ_eq_map, optMapM,
        optMapM_map_comp]
      rw [optMapM_congr_fn _ _ _ he, ih]
      rfl

/-- The 200-byte TXT chunking is lossless on Base64 text: decoding the
chunks separately and concatenating gives the decode of the whole text. -/
theorem chunks_mapM :
    ∀ (n : ℕ) (l d : List ℕ), l.length = n → l.length % 4 = 0 →
      b64decodeAux l = some d →
      ∃ parts, optMapM b64decode (splitChunks l) = some parts ∧
        parts.flatten = d := by
  intro n
  induction n using Nat.strong_induction_on with
  | _ n ih =>
      intro l d hlen h4 hdec
      by_cases hnil : l = []
      · subst hnil
        rw [splitChunks, if_pos rfl]
        have hd : d = [] := by
          simpa [b64decodeAux] using hdec.symm
        subst hd
        exact ⟨[], rfl, rfl⟩
      · by_cases h200 : l.length ≤ 200
        · have hpad : padTo4 l = l := by
            unfold padTo4
            rw [h4]
            simp
          rw [splitChunks, if_neg hnil, dif_pos h200, hpad]
          have hbl : b64decode l = some d := by
            unfold b64decode
            rw [if_pos h4]
            exact hdec
          refine ⟨[d], ?_, by simp⟩
          simp [optMapM, hbl]
        · push_neg at h200
          have hsplit : splitChunks l =
              l.take 200 :: splitChunks (l.drop 200) := by
            rw [splitChunks, if_neg hnil, dif_neg (by omega)]
          have htk : (l.take 200).length = 200 := by
            rw [List.length_take]
            omega
          have happ := b64decodeAux_append (l.take 200) (l.drop 200)
            (by rw [htk])
          rw [List.take_append_drop] at happ
          rw [happ] at hdec
          cases ha : b64decodeAux (l.take 200) with
          | none =>
              rw [ha] at hdec
              simp at hdec
          | some a =>
              cases hb : b64decodeAux (l.drop 200) with
              | none =>
                  rw [ha, hb] at hdec
                  simp at hdec
              | some bpart =>
                  rw [ha, hb] at hdec
                  have hd : a ++ bpart = d := by
                    simpa using hdec
                  have hdl : (l.drop 200).length = n - 200 := by
                    rw [List.length_drop]
                    omega
                  have hm : (l.drop 200).length % 4 = 0 := by
                    rw [List.length_drop]
                    omega
                  obtain ⟨parts2, hp2, hf2⟩ :=
                    ih (n - 200) (by omega) (l.drop 200) bpart hdl hm hb
                  have hta : b64decode (l.take 200) = some a := by
                    unfold b64decode
                    rw [if_pos (by rw [htk])]
                    exact ha
                  refine ⟨a :: parts2, ?_, ?_⟩
                  · rw [hsplit]
                    simp [optMapM, hta, hp2]
                  · simp [hf2, hd]

theorem take_drop_getD (p : List ℕ) (o k : ℕ) (h : o + k ≤ p.length) :
    (p.drop o).take k = (List.range k).map (fun i => p.getD (o + i) 0) := by
  apply List.ext_getElem
  · simp only [List.length_take, List.length_drop, List.length_map,
      List.length_range]
    omega
  · intro i h1 h2
    simp only [List.getElem_take, List.getElem_drop, List.getElem_map,
      List.getElem_range]
    rw [List.getD_eq_getElem?_getD, List.getElem?_eq_getElem (by
      simp only [List.length_take, List.length_drop] at h1
      omega)]
    simp

theorem pairwise_lt_of_le_nodup {α : Type} (key : α → ℕ) :
    ∀ (l : List α), l.Pairwise (fun a b => key a ≤ key b) →
      (l.map key).Nodup → l.Pairwise (fun a b => key a < key b) := by
  intro l
  induction l with
  | nil =>
      intro _ _
      exact List.Pairwise.nil
  | cons a t ih =>
      intro h hn
      rcases List.pairwise_cons.mp h with ⟨ha, ht⟩
      rw [List.map_cons, List.nodup_cons] at hn
      refine List.pairwise_cons.mpr ⟨?_, ih ht hn.2⟩
      intro c hc
      have h1 := ha c hc
      have h2 : key a ≠ key c := fun he => hn.1 (he ▸ List.mem_map_of_mem key hc)
      omega

/-- The decoder's id-sort followed by the sentinel filter recovers exactly
the real fragments, in id order, from any permutation of real and noise
fragments: noise carries the sentinel id and the real ids are strictly
increasing. -/
theorem decode_kept (real noise X : List EncodedFragment)
    (hperm : List.Perm X (real ++ noise))
    (hreal : real.Pairwise (fun a b => a.fragment_id < b.fragment_id))
    (hrs : ∀ f ∈ real, f.fragment_id ≠ sentinelId)
    (hns : ∀ f ∈ noise, f.fragment_id = sentinelId) :
    (keySort (fun f => f.fragment_id) X).filter
      (fun f => f.fragment_id ≠ sentinelId) = real := by
  have hq : (real ++ noise).filter (fun f => f.fragment_id ≠ sentinelId) =
      real := by
    rw [List.filter_append,
      List.filter_eq_self.mpr (fun f hf => decide_eq_true (hrs f hf))]
    have hz : noise.filter (fun f => f.fragment_id ≠ sentinelId) = [] := by
      rw [List.filter_eq_nil_iff]
      intro f hf
      simp [hns f hf]
    rw [hz, List.append_nil]
  have hpermF : List.Perm ((keySort (fun f => f.fragment_id) X).filter
      (fun f => f.fragment_id ≠ sentinelId)) real := by
    have h1 := (keySort_perm (fun f => f.fragment_id) X).trans hperm
    have h2 := h1.filter (fun f => f.fragment_id ≠ sentinelId)
    rw [hq] at h2
    exact h2
  have hle : ((keySort (fun f => f.fragment_id) X).filter
      (fun f => f.fragment_id ≠ sentinelId)).Pairwise
      (fun a b => a.fragment_id ≤ b.fragment_id) :=
    (keySort_pairwise (fun f => f.fragment_id) X).sublist
      (List.filter_sublist _)
  have hnody : (((keySort (fun f => f.fragment_id) X).filter
      (fun f => f.fragment_id ≠ sentinelId)).map
      (fun f => f.fragment_id)).Nodup := by
    have h3 := hpermF.map (fun f => f.fragment_id)
    rw [h3.nodup_iff]
    have h4 : (real.map (fun f => f.fragment_id)).Pairwise (· < ·) :=
      List.pairwise_map.mpr hreal
    exact List.Pairwise.imp Nat.ne_of_lt h4
  have hlt := pairwise_lt_of_le_nodup
    (fun f : EncodedFragment => f.fragment_id) _ hle hnody
  exact eq_of_perm_of_pairwise_lt
    (fun f : EncodedFragment => f.fragment_id) _ real hpermF hlt hreal

theorem b64encode_ne_nil (p : List ℕ) (hp : p ≠ []) : b64encode p ≠ [] := by
  match p with
  | [] => exact absurd rfl hp
  | [a] => simp [b64encode]
  | [a, a2] => simp [b64encode]
  | a :: a2 :: a3 :: rest => simp [b64encode]

theorem splitChunks_ne_nil (l : List ℕ) (hl : l ≠ []) : splitChunks l ≠ [] := by
  rw [splitChunks, if_neg hl]
  by_cases h : l.length ≤ 200
  · rw [dif_pos h]
    simp
  · rw [dif_neg h]
    simp

/-- Decoding one multi-record fragment recovers exactly its payload chunk,
provided the chunk was not padded (`emrStepOK`). -/
theorem emrFrag_decode (p b : List ℕ) (offset fid : ℕ)
    (hp : ∀ x ∈ p, x < 256)
    (hok : emrStepOK fid p.length offset = true) (hoff : offset < p.length) :
    decode_one_fragment (emrFrag p b offset fid) =
      some ((p.drop offset).take (emrChunkSize fid p.length offset)) := by
  by_cases h0 : fid % 3 = 0
  · have htype : emrType fid = typeA := by
      rw [emrType, if_pos h0]
    unfold emrStepOK at hok
    rw [if_pos h0] at hok
    simp only [decide_eq_true_eq] at hok
    have hchunk : emrChunkSize fid p.length offset = 4 := by
      unfold emrChunkSize emrCap
      rw [if_pos h0]
      omega
    unfold decode_one_fragment
    rw [show (emrFrag p b offset fid).record_type = emrType fid from rfl,
      htype, if_pos rfl]
    rw [show (emrFrag p b offset fid).encoded_data = emrData p offset fid
      from rfl]
    rw [emrData, if_pos h0]
    simp only [encode_to_ipv4]
    rw [if_neg (by omega)]
    rw [decode_from_ipv4, if_neg (by simp)]
    rw [hchunk, take_drop_getD p offset 4 (by omega)]
    simp [List.range_succ]
  · by_cases h1 : fid % 3 = 1
    · have htype : emrType fid = typeAAAA := by
        rw [emrType, if_neg h0, if_pos h1]
      unfold emrStepOK at hok
      rw [if_neg h0, if_pos h1] at hok
      simp only [decide_eq_true_eq] at hok
      have hchunk : emrChunkSize fid p.length offset = 16 := by
        unfold emrChunkSize emrCap
        rw [if_neg h0, if_pos h1]
        omega
      unfold decode_one_fragment
      rw [show (emrFrag p b offset fid).record_type = emrType fid from rfl,
        htype, if_neg (by decide), if_pos rfl]
      rw [show (emrFrag p b offset fid).encoded_data = emrData p offset fid
        from rfl]
      rw [emrData, if_neg h0, if_pos h1]
      simp only [encode_to_ipv6]
      rw [if_neg (by omega)]
      rw [decode_from_ipv6, if_neg (by simp)]
      rw [hchunk, take_drop_getD p offset 16 (by omega)]
    · have htype : emrType fid = typeTXT := by
        rw [emrType, if_neg h0, if_neg h1]
      have hchunkmem : ∀ x ∈ (p.drop offset).take
          (emrChunkSize fid p.length offset), x < 256 := by
        intro x hx
        exact hp x (List.mem_of_mem_drop (List.mem_of_mem_take hx))
      unfold decode_one_fragment
      rw [show (emrFrag p b offset fid).record_type = emrType fid from rfl,
        htype, if_neg (by decide), if_neg (by decide), if_pos rfl]
      rw [show (emrFrag p b offset fid).encoded_data = emrData p offset fid
        from rfl]
      rw [emrData, if_neg h0, if_neg h1]
      rw [decode_txt_single]
      exact b64decode_encode _ hchunkmem

/-- Decoding the multi-record loop output in order reconstructs the payload
suffix, whenever the loop is exact. -/
theorem emr_loop_mapM (p b : List ℕ) (m : ℕ) (hp : ∀ x ∈ p, x < 256) :
    ∀ (offset fid : ℕ),
      multiExactGo p.length m offset fid = true →
      ∃ parts, optMapM decode_one_fragment
          (encode_multi_record_loop p b m offset fid) = some parts ∧
        parts.flatten = p.drop offset := by
  have H : ∀ (k offset fid : ℕ), p.length - offset ≤ k →
      multiExactGo p.length m offset fid = true →
      ∃ parts, optMapM decode_one_fragment
          (encode_multi_record_loop p b m offset fid) = some parts ∧
        parts.flatten = p.drop offset := by
    intro k
    induction k with
    | zero =>
        intro offset fid hk _
        rw [emr_loop_nil p b m offset fid (by omega)]
        refine ⟨[], rfl, ?_⟩
        rw [List.drop_eq_nil_of_le (by omega)]
        rfl
    | succ k ihk =>
        intro offset fid hk hex
        by_cases hoff : offset < p.length
        · rw [emr_loop_cons p b m offset fid hoff]
          rw [multiExactGo, dif_pos hoff] at hex
          by_cases hbreak : (fid + 1) % 4294967296 ≥ m
          · rw [if_pos hbreak] at hex ⊢
            rw [Bool.and_eq_true, decide_eq_true_eq] at hex
            obtain ⟨hok, hfull⟩ := hex
            have htake : (p.drop offset).take
                (emrChunkSize fid p.length offset) = p.drop offset :=
              List.take_of_length_le (by rw [List.length_drop]; omega)
            refine ⟨[(p.drop offset).take (emrChunkSize fid p.length offset)],
              ?_, ?_⟩
            · simp [optMapM, emrFrag_decode p b offset fid hp hok hoff]
            · simp [htake]
          · rw [if_neg hbreak] at hex ⊢
            rw [Bool.and_eq_true] at hex
            obtain ⟨hok, hrec⟩ := hex
            have hcs := emrChunkSize_pos fid p.length offset hoff
            obtain ⟨parts2, hp2, hf2⟩ := ihk
              (offset + emrChunkSize fid p.length offset)
              ((fid + 1) % 4294967296) (by omega) hrec
            refine ⟨(p.drop offset).take (emrChunkSize fid p.length offset)
              :: parts2, ?_, ?_⟩
            · simp [optMapM, emrFrag_decode p b offset fid hp hok hoff, hp2]
            · simp only [List.flatten_cons]
              rw [hf2]
              rw [show p.drop (offset + emrChunkSize fid p.length offset) =
                (p.drop offset).drop (emrChunkSize fid p.length offset) from
                (List.drop_drop _ _ _).symm]
              exact List.take_append_drop _ _
        · rw [emr_loop_nil p b m offset fid hoff]
          refine ⟨[], rfl, ?_⟩
          rw [List.drop_eq_nil_of_le (by omega)]
          rfl
  intro offset fid hex
  exact H (p.length - offset) offset fid (by omega) hex

/-- TxtOnly fragments pass the whole decoder front end (sort, sentinel
filter, checksum filter) untouched and decode back to the processed
payload. -/
theorem txt_decode_core (p b : List ℕ) (l : List EncodedFragment)
    (h : encode_txt_only p b = Except.ok l) (hp : p ≠ [])
    (hlen : p.length ≤ 268435458) (hbytes : ∀ x ∈ p, x < 256) :
    l ≠ [] ∧
    ∃ parts, optMapM decode_one_fragment
        (((keySort (fun f => f.fragment_id) l).filter
          (fun f => f.fragment_id ≠ sentinelId)).filter
          (fun f => verify_checksum f.encoded_data f.checksum)) = some parts ∧
      parts.flatten = p := by
  unfold encode_txt_only at h
  simp only [Except.ok.injEq] at h
  subst h
  have hNle : (encode_to_txt_fragments p).length ≤ 4 * p.length :=
    txt_fragments_count_le p
  have hid : ∀ i < (encode_to_txt_fragments p).length, u32 i = i := by
    intro i hi
    unfold u32
    omega
  have hN0 : 0 < (encode_to_txt_fragments p).length := by
    unfold encode_to_txt_fragments
    rw [List.length_map, List.length_range]
    exact List.length_pos.mpr (splitChunks_ne_nil _ (b64encode_ne_nil p hp))
  have hpw0 : (List.range (encode_to_txt_fragments p).length).Pairwise
      (fun i j => u32 i < u32 j) := by
    refine (List.pairwise_lt_range _).imp_of_mem ?_
    intro a c ha hc hlt
    rw [List.mem_range] at ha hc
    rw [hid a ha, hid c hc]
    exact hlt
  have hpw : ((List.range (encode_to_txt_fragments p).length).map (fun i =>
      ({ record_type := typeTXT
         domain := generate_steganographic_subdomain (u32 i) typeTXT ++
           [dotByte] ++ b
         encoded_data := (encode_to_txt_fragments p).getD i []
         fragment_id := u32 i
         total_fragments := u32 (encode_to_txt_fragments p).length
         checksum := calculate_checksum
           ((encode_to_txt_fragments p).getD i []) } :
        EncodedFragment))).Pairwise
      (fun a c => a.fragment_id < c.fragment_id) :=
    List.pairwise_map.mpr hpw0
  have hrs : ∀ f ∈ (List.range (encode_to_txt_fragments p).length).map
      (fun i =>
      ({ record_type := typeTXT
         domain := generate_steganographic_subdomain (u32 i) typeTXT ++
           [dotByte] ++ b
         encoded_data := (encode_to_txt_fragments p).getD i []
         fragment_id := u32 i
         total_fragments := u32 (encode_to_txt_fragments p).length
         checksum := calculate_checksum
           ((encode_to_txt_fragments p).getD i []) } :
        EncodedFragment)), f.fragment_id ≠ sentinelId := by
    intro f hf
    rw [List.mem_map] at hf
    obtain ⟨i, hi, hfi⟩ := hf
    rw [List.mem_range] at hi
    subst hfi
    show u32 i ≠ sentinelId
    unfold u32 sentinelId
    omega
  have hver : ∀ f ∈ (List.range (encode_to_txt_fragments p).length).map
      (fun i =>
      ({ record_type := typeTXT
         domain := generate_steganographic_subdomain (u32 i) typeTXT ++
           [dotByte] ++ b
         encoded_data := (encode_to_txt_fragments p).getD i []
         fragment_id := u32 i
         total_fragments := u32 (encode_to_txt_fragments p).length
         checksum := calculate_checksum
           ((encode_to_txt_fragments p).getD i []) } :
        EncodedFragment)),
      verify_checksum f.encoded_data f.checksum = true := by
    intro f hf
    rw [List.mem_map] at hf
    obtain ⟨i, _, hfi⟩ := hf
    subst hfi
    exact verify_checksum_self _
  have hgetD : ∀ i < (encode_to_txt_fragments p).length,
      (encode_to_txt_fragments p).getD i [] =
        create_steganographic_txt
          ((splitChunks (b64encode p)).getD i []) (u32 i) := by
    intro i hi
    conv_lhs => rw [encode_to_txt_fragments]
    unfold encode_to_txt_fragments at hi
    rw [List.length_map, List.length_range] at hi
    rw [List.getD_eq_getElem?_getD, List.getElem?_map,
      List.getElem?_range hi]
    simp
  have hNchunks : (encode_to_txt_fragments p).length =
      (splitChunks (b64encode p)).length := by
    unfold encode_to_txt_fragments
    rw [List.length_map, List.length_range]
  have hmain : ∃ parts, optMapM decode_one_fragment
      ((List.range (encode_to_txt_fragments p).length).map (fun i =>
      ({ record_type := typeTXT
         domain := generate_steganographic_subdomain (u32 i) typeTXT ++
           [dotByte] ++ b
         encoded_data := (encode_to_txt_fragments p).getD i []
         fragment_id := u32 i
         total_fragments := u32 (encode_to_txt_fragments p).length
         checksum := calculate_checksum
           ((encode_to_txt_fragments p).getD i []) } :
        EncodedFragment))) = some parts ∧ parts.flatten = p := by
    rw [optMapM_map_comp]
    have hcong : ∀ i ∈ List.range (encode_to_txt_fragments p).length,
        decode_one_fragment
          ({ record_type := typeTXT
             domain := generate_steganographic_subdomain (u32 i) typeTXT ++
               [dotByte] ++ b
             encoded_data := (encode_to_txt_fragments p).getD i []
             fragment_id := u32 i
             total_fragments := u32 (encode_to_txt_fragments p).length
             checksum := calculate_checksum
               ((encode_to_txt_fragments p).getD i []) } :
            EncodedFragment) =
          b64decode ((splitChunks (b64encode p)).getD i []) := by
      intro i hi
      rw [List.mem_range] at hi
      unfold decode_one_fragment
      rw [if_neg (by simp [typeA, typeTXT]), if_neg (by simp [typeAAAA, typeTXT]),
        if_pos rfl]
      show decode_from_txt_fragments [(encode_to_txt_fragments p).getD i []]
        = _
      rw [hgetD i hi, decode_txt_single]
    rw [optMapM_congr_fn _ _ _ hcong, hNchunks, optMapM_range_getD]
    exact chunks_mapM (b64encode p).length (b64encode p) p rfl
      (b64encode_length_mod p) (b64decodeAux_encode p hbytes)
  constructor
  · intro hq
    rw [List.map_eq_nil_iff, List.range_eq_nil] at hq
    exact Nat.lt_irrefl 0 (hq ▸ hN0)
  · have hkept := decode_kept _ [] _ (by rw [List.append_nil]) hpw hrs
      (by intro f hf; cases hf)
    rw [hkept, List.filter_eq_self.mpr hver]
    exact hmain

/-- Any permutation of an exact MultiRecord encoding passes the decoder
front end with exactly the real fragments surviving, in id order, and
decodes back to the processed payload. -/
theorem multi_decode_core (cfg : EncodingConfig) (gN gS : ℕ → ℕ)
    (p b : List ℕ) (m X : List EncodedFragment)
    (h : encode_multi_record cfg gN gS p b = Except.ok m)
    (hX : List.Perm X m)
    (hexact : multiExactGo p.length cfg.max_fragments 0 0 = true)
    (hp : p ≠ []) (hlen : p.length ≤ 268435458)
    (hbytes : ∀ x ∈ p, x < 256) :
    X ≠ [] ∧
    ∃ parts, optMapM decode_one_fragment
        (((keySort (fun f => f.fragment_id) X).filter
          (fun f => f.fragment_id ≠ sentinelId)).filter
          (fun f => verify_checksum f.encoded_data f.checksum)) = some parts ∧
      parts.flatten = p := by
  unfold encode_multi_record at h
  simp only [] at h
  set raw := encode_multi_record_loop p b cfg.max_fragments 0 0 with hraw
  set frags := raw.map (fun f => { f with total_fragments := u32 raw.length })
    with hfrags
  have hbase : ∃ noiseL, (∀ f ∈ noiseL, f.fragment_id = sentinelId) ∧
      (if cfg.noise_ratio > 0 then
        add_noise_fragments gN frags b cfg.noise_ratio else frags) =
        frags ++ noiseL := by
    by_cases hn : cfg.noise_ratio > 0
    · rw [if_pos hn]
      refine ⟨(List.range (((frags.length : ℚ) *
          cfg.noise_ratio).floor.toNat)).map (fun i =>
          ({ record_type := 1 + gN (33 * i) % 16
             domain := strBytes "noise" ++ toDecBytes i ++ [dotByte] ++ b
             encoded_data := (List.range 32).map
               (fun j => gN (33 * i + 1 + j) % 256)
             fragment_id := sentinelId
             total_fragments := 0
             checksum := [] } : EncodedFragment)), ?_, rfl⟩
      intro f hf
      rw [List.mem_map] at hf
      obtain ⟨i, _, hfi⟩ := hf
      subst hfi
      rfl
    · rw [if_neg hn]
      refine ⟨[], ?_, ?_⟩
      · intro f hf
        cases hf
      · rw [List.append_nil]
  obtain ⟨noiseL, hns, heq⟩ := hbase
  have hm2 : List.Perm m (frags ++ noiseL) := by
    by_cases hrand : cfg.randomize_order = true
    · rw [if_pos hrand] at h
      simp only [Except.ok.injEq] at h
      rw [← h, heq]
      exact randomize_fragment_order_perm gS _
    · rw [if_neg hrand] at h
      simp only [Except.ok.injEq] at h
      rw [← h, heq]
  have hXp : List.Perm X (frags ++ noiseL) := hX.trans hm2
  have hplen32 : p.length < 4294967295 := by omega
  have hids : frags.map (fun f => f.fragment_id) =
      List.range' 0 raw.length := by
    rw [hfrags, List.map_map]
    have h1 := emr_loop_ids p b cfg.max_fragments 0 0 (by omega)
    rw [← hraw] at h1
    exact h1
  have hcnt : raw.length ≤ p.length := by
    have h4 := emr_loop_length_le p b cfg.max_fragments 0 0
    rw [← hraw] at h4
    omega
  have hreal : frags.Pairwise (fun a c => a.fragment_id < c.fragment_id) := by
    have h2 : (frags.map (fun f => f.fragment_id)).Pairwise (· < ·) := by
      rw [hids]
      exact List.pairwise_lt_range' 0 raw.length
    exact List.pairwise_map.mp h2
  have hrs : ∀ f ∈ frags, f.fragment_id ≠ sentinelId := by
    intro f hf
    have hmem : f.fragment_id ∈ frags.map (fun f => f.fragment_id) :=
      List.mem_map_of_mem _ hf
    rw [hids] at hmem
    have h3 := (List.mem_range'_1.mp hmem).2
    unfold sentinelId
    omega
  have hp0 : 0 < p.length := List.length_pos.mpr hp
  have hraw0 : raw ≠ [] := by
    rw [hraw, emr_loop_cons p b cfg.max_fragments 0 0 hp0]
    by_cases hbk : (0 + 1) % 4294967296 ≥ cfg.max_fragments
    · rw [if_pos hbk]
      simp
    · rw [if_neg hbk]
      simp
  constructor
  · intro hq
    have hl := hXp.length_eq
    rw [hq] at hl
    simp only [List.length_nil, List.length_append] at hl
    have h5 : frags.length = 0 := by omega
    rw [hfrags, List.length_map] at h5
    exact hraw0 (List.length_eq_zero.mp h5)
  · have hkept := decode_kept frags noiseL X hXp hreal hrs hns
    rw [hkept]
    have hver : ∀ f ∈ frags,
        verify_checksum f.encoded_data f.checksum = true := by
      intro f hf
      rw [hfrags, List.mem_map] at hf
      obtain ⟨f0, hf0, hff⟩ := hf
      rw [hraw] at hf0
      obtain ⟨_, _, _, hcrc⟩ :=
        emr_loop_shape p b cfg.max_fragments 0 0 (by norm_num) f0 hf0
      subst hff
      show verify_checksum f0.encoded_data f0.checksum = true
      rw [hcrc]
      exact verify_checksum_self f0.encoded_data
    rw [List.filter_eq_self.mpr hver]
    have hpatch : optMapM decode_one_fragment frags =
        optMapM decode_one_fragment raw := by
      rw [hfrags, optMapM_map_comp]
      exact optMapM_congr_fn _ _ raw (fun f0 _ => rfl)
    rw [hpatch]
    obtain ⟨parts, hpm, hfl⟩ :=
      emr_loop_mapM p b cfg.max_fragments hbytes 0 0 hexact
    rw [← hraw] at hpm
    refine ⟨parts, hpm, ?_⟩
    rw [hfl, List.drop_zero]

/-- Unfolding the decoder pipeline to the final `DecodedPayload`. -/
theorem decode_finish (cfg : EncodingConfig) (l : List EncodedFragment)
    (processed payload : List ℕ) (hne : l ≠ [])
    (hparts : ∃ parts, optMapM decode_one_fragment
        (((keySort (fun f => f.fragment_id) l).filter
          (fun f => f.fragment_id ≠ sentinelId)).filter
          (fun f => verify_checksum f.encoded_data f.checksum)) = some parts ∧
        parts.flatten = processed)
    (hfin : (if cfg.use_compression then decompress_payload processed
      else processed) = payload) :
    Option.map (Except.map (fun r : DecodedPayload => r.data))
      (decode_fragments cfg l) = some (Except.ok payload) := by
  obtain ⟨parts, hmm2, hfl⟩ := hparts
  unfold decode_fragments
  rw [if_neg hne]
  simp only []
  rw [hmm2]
  simp only [Option.map_some']
  rw [hfl, hfin]
  rfl

/-- C1 (amended): the unconditional round trip is false (MultiRecord
address chunks are zero-padded, so e.g. a 3-byte payload decodes with a
trailing zero), but the repaired statement holds: `decode_fragments`
reproduces the payload exactly — for both compression settings and through
noise injection, order randomization and the Distributed re-sort —
whenever the strategy is TxtOnly, or the strategy is MultiRecord or
Distributed and the processed payload partitions exactly into unpadded
A/AAAA/TXT chunks (`multiExactGo`, which also rules out the
`max_fragments` truncation). -/
theorem c1_round_trip_amended :
    ∀ (cfg : EncodingConfig) (gN gS : ℕ → ℕ) (payload base_domain : List ℕ)
      (l : List EncodedFragment),
      encode_payload cfg gN gS payload base_domain = Except.ok l →
      payload.length ≤ 268435456 →
      (∀ x ∈ payload, x < 256) →
      (cfg.strategy = EncodingStrategy.TXT_ONLY ∨
        multiExactGo (if cfg.use_compression then payload.length + 2
          else payload.length) cfg.max_fragments 0 0 = true) →
      Option.map (Except.map (fun r : DecodedPayload => r.data))
        (decode_fragments cfg l) = some (Except.ok payload) := by
  intro cfg gN gS payload base_domain l h hlen hbytes hcond
  unfold encode_payload at h
  by_cases hnil : payload = []
  · rw [if_pos hnil] at h
    cases h
  · rw [if_neg hnil] at h
    simp only [] at h
    set processed := if cfg.use_compression then compress_payload payload
      else payload with hproc
    have hplen : processed.length = if cfg.use_compression then
        payload.length + 2 else payload.length := by
      rw [hproc]
      by_cases hc : cfg.use_compression = true
      · rw [if_pos hc, if_pos hc]
        simp [compress_payload]
      · rw [if_neg hc, if_neg hc]
    have hpne : processed ≠ [] := by
      rw [hproc]
      by_cases hc : cfg.use_compression = true
      · rw [if_pos hc]
        simp [compress_payload]
      · rw [if_neg hc]
        exact hnil
    have hpbytes : ∀ x ∈ processed, x < 256 := by
      rw [hproc]
      by_cases hc : cfg.use_compression = true
      · rw [if_pos hc]
        intro x hx
        simp only [compress_payload, List.mem_cons] at hx
        rcases hx with rfl | rfl | hx
        · omega
        · omega
        · exact hbytes x hx
      · rw [if_neg hc]
        exact hbytes
    have hfin : (if cfg.use_compression then decompress_payload processed
        else processed) = payload := by
      rw [hproc]
      by_cases hc : cfg.use_compression = true
      · rw [if_pos hc, if_pos hc]
        rfl
      · rw [if_neg hc, if_neg hc]
    have hplen258 : processed.length ≤ 268435458 := by
      rw [hplen]
      by_cases hc : cfg.use_compression = true
      · rw [if_pos hc]
        omega
      · rw [if_neg hc]
        omega
    have hexact2 : cfg.strategy ≠ EncodingStrategy.TXT_ONLY →
        multiExactGo processed.length cfg.max_fragments 0 0 = true := by
      intro hne2
      rcases hcond with hcond | hcond
      · exact absurd hcond hne2
      · rw [hplen]
        exact hcond
    cases hstrat : cfg.strategy with
    | TXT_ONLY =>
        rw [hstrat] at h
        obtain ⟨hne, hparts⟩ :=
          txt_decode_core processed base_domain l h hpne hplen258 hpbytes
        exact decode_finish cfg l processed payload hne hparts hfin
    | MULTI_RECORD =>
        rw [hstrat] at h
        have hexact := hexact2 (by rw [hstrat]; intro hq; cases hq)
        obtain ⟨hne, hparts⟩ := multi_decode_core cfg gN gS processed
          base_domain l l h (List.Perm.refl l) hexact hpne hplen258 hpbytes
        exact decode_finish cfg l processed payload hne hparts hfin
    | DISTRIBUTED =>
        rw [hstrat] at h
        unfold encode_distributed at h
        cases hm : encode_multi_record cfg gN gS processed base_domain with
        | error e =>
            rw [hm] at h
            cases h
        | ok m =>
            rw [hm] at h
            simp only [Except.ok.injEq] at h
            subst h
            have hexact := hexact2 (by rw [hstrat]; intro hq; cases hq)
            obtain ⟨hne, hparts⟩ := multi_decode_core cfg gN gS processed
              base_domain m (keySort (fun f => f.record_type) m) hm
              (keySort_perm _ m) hexact hpne hplen258 hpbytes
            exact decode_finish cfg _ processed payload hne hparts hfin
    | HTTP2_BODY =>
        rw [hstrat] at h
        cases h

/-- C1 witness: TxtOnly on payload `[1]` over base `"a"` decodes back. -/
theorem c1_witness :
    Option.map (Except.map (fun r : DecodedPayload => r.data))
      (decode_fragments (mkConfig EncodingStrategy.TXT_ONLY 10 false false 0)
        [{ record_type := typeTXT
           domain := generate_steganographic_subdomain 0 typeTXT ++
             [dotByte] ++ [97]
           encoded_data := create_steganographic_txt [65, 81, 61, 61] 0
           fragment_id := 0
           total_fragments := 1
           checksum := calculate_checksum
             (create_steganographic_txt [65, 81, 61, 61] 0) }]) =
      some (Except.ok [1]) :=
  c1_round_trip_amended
    (mkConfig EncodingStrategy.TXT_ONLY 10 false false 0)
    (fun _ => 0) (fun _ => 0) [1] [97]
    [{ record_type := typeTXT
       domain := generate_steganographic_subdomain 0 typeTXT ++
         [dotByte] ++ [97]
       encoded_data := create_steganographic_txt [65, 81, 61, 61] 0
       fragment_id := 0
       total_fragments := 1
       checksum := calculate_checksum
         (create_steganographic_txt [65, 81, 61, 61] 0) }]
    (by
      have hb1 : b64encode [1] = [65, 81, 61, 61] := by decide
      have hs : splitChunks [65, 81, 61, 61] = [[65, 81, 61, 61]] := by
        rw [splitChunks]
        simp [padTo4]
      have ht : encode_to_txt_fragments [1] =
          [create_steganographic_txt [65, 81, 61, 61] 0] := by
        simp [encode_to_txt_fragments, hb1, hs, u32, List.range_succ]
      simp only [encode_payload, encode_txt_only, mkConfig]
      norm_num
      rw [ht]
      simp [u32, List.range_succ])
    (by decide) (by decide)
    (Or.inl rfl)

end Chimera
